import Mathlib

/-!
Verification development for the AliSim sequence simulator
(src/main/alisim.cpp and the AliSimulatorInvar class in src/unnamed/part_000).

The embedding models:
  - doubles as rationals (ℚ);
  - the global RNG (random_double) as an explicit stream ℕ → ℚ together
    with a position index, threaded through every operation in program order;
  - vector<int> sequences as List Int (states are C ints, so the -1
    sentinel is storable);
  - double* matrix buffers as total functions Int → ℚ (C pointers are
    indexed with int offsets computed from parent states);
  - the phylogenetic tree in first-child / next-sibling form: an NTree
    value denotes a forest, a node carries its name, the length of the
    edge towards its parent, the per-branch model attribute, its children
    and its right siblings.  The traversal root of the C code is a single
    node whose sibling list is empty.
-/

set_option maxHeartbeats 1000000

namespace AliSimProof

/-- Explicit random-number-generator state: the infinite stream of values
produced by random_double together with the position of the next draw. -/
structure RNG where
  stream : ℕ → ℚ
  ix : ℕ

/-- One call to random_double: yields the current stream value and advances. -/
def RNG.next (r : RNG) : ℚ × RNG := (r.stream r.ix, ⟨r.stream, r.ix + 1⟩)

/-- State-threaded map over site indices i, i+1, ..., i+n-1, in increasing
order, mirroring the per-site for-loops of the C code. -/
def mapRangeAux {α : Type} (f : ℕ → RNG → α × RNG) (i : ℕ) : ℕ → RNG → List α × RNG
  | 0, r => ([], r)
  | n + 1, r =>
    let p := f i r
    let q := mapRangeAux f (i + 1) n p.2
    (p.1 :: q.1, q.2)

/-- State-threaded map over site indices 0..n-1. -/
def mapRange {α : Type} (f : ℕ → RNG → α × RNG) (n : ℕ) (r : RNG) : List α × RNG :=
  mapRangeAux f 0 n r

/-- RNG state reached after the first k iterations of mapRangeAux started at
site index i. -/
def mapSteps {α : Type} (f : ℕ → RNG → α × RNG) (i : ℕ) (r : RNG) : ℕ → RNG
  | 0 => r
  | k + 1 => (f (i + k) (mapSteps f i r k)).2

/-- Loops whose body makes exactly one uniform draw and then computes a pure
function of the site index and the drawn value.  The per-site bodies of
generateRandomSequence, simulateSeqsWithoutRH and
AliSimulatorInvar::initVariables all have this shape. -/
def drawMap {α : Type} (g : ℕ → ℚ → α) (n : ℕ) (r : RNG) : List α × RNG :=
  mapRange (fun i r => let p := r.next; (g i p.1, p.2)) n r

/-- Scan loop of getRandomItemWithProbabilityMatrix
(src/main/alisim.cpp lines 183-189): acc accumulates the probabilities,
i is the current item, the last argument counts the remaining items. -/
def getRandomItemAux (pm : Int → ℚ) (start : Int) (u : ℚ) : ℚ → ℕ → ℕ → Int
  | _, _, 0 => -1
  | acc, i, rem + 1 =>
    let acc2 := acc + pm (start + i)
    if u ≤ acc2 then (i : Int) else getRandomItemAux pm start u acc2 (i + 1) rem

/-- Embedding of getRandomItemWithProbabilityMatrix
(src/main/alisim.cpp lines 177-193).  The uniform draw random_double() is
passed in explicitly as u by every caller, in program order. -/
def getRandomItemWithProbabilityMatrix (pm : Int → ℚ) (start : Int) (numItems : ℕ)
    (u : ℚ) : Int :=
  getRandomItemAux pm start u 0 0 numItems

/-- Cumulative sum of the first n entries of the buffer pm from offset start. -/
def cumulSum (pm : Int → ℚ) (start : Int) : ℕ → ℚ
  | 0 => 0
  | n + 1 => cumulSum pm start n + pm (start + n)

/-- Distribution used by concrete witness instances of the sampler theorems. -/
def c3WitnessPm : Int → ℚ :=
  fun k => if k = 0 then 3/10 else if k = 1 then 7/10 else 0

/-- Phylogenetic tree in first-child / next-sibling form.  An NTree value is
the forest of neighbors of some node away from its dad; a node carries its
name, the length of the edge towards its dad, the per-branch model attribute
string ((*it)->attributes["model"], empty when absent), its children and its
right siblings.  The traversal root of the C code is a single node with an
empty sibling list. -/
inductive NTree : Type where
  | nil : NTree
  | node (name : String) (bl : ℚ) (modelAttr : String) (children sibs : NTree) : NTree
deriving DecidableEq

/-- Simulated counterpart of NTree: each node additionally carries the
sequence (vector of int state codes) assigned during the traversal. -/
inductive SimT : Type where
  | snil : SimT
  | snode (name : String) (seq : List Int) (children sibs : SimT) : SimT
deriving DecidableEq

/-- Number of nodes of a neighbor forest, i.e. the number of edges the DFS
simulates below the forest's parent. -/
def edgeCount : NTree → ℕ
  | .nil => 0
  | .node _ _ _ cs sb => 1 + edgeCount cs + edgeCount sb

/-- Edges simulated by a whole run started at the traversal root. -/
def rootForestEdges : NTree → ℕ
  | .nil => 0
  | .node _ _ _ cs _ => edgeCount cs

/-- Per-site loop of simulateSeqsWithoutRH (src/main/alisim.cpp lines
246-256): one transition matrix for the edge's raw length, then for each
site one uniform draw and a cumulative scan over the row of the parent
state, whose offset is node->sequence[i]*max_num_states. -/
def simulateSeqsWithoutRHEdge (ctm : ℚ → Int → ℚ) (N L : ℕ) (bl : ℚ)
    (parentSeq : List Int) (r : RNG) : List Int × RNG :=
  drawMap (fun i u =>
    getRandomItemWithProbabilityMatrix (ctm bl)
      (parentSeq.getD i 0 * (N : Int)) N u) L r

/-- Embedding of simulateSeqsWithoutRH (src/main/alisim.cpp lines 240-261):
recursive DFS over the neighbor forest away from the dad; each child's
sequence is simulated from the parent sequence, then the DFS descends into
the child before moving to the next sibling, exactly as FOR_NEIGHBOR does. -/
def simulateSeqsWithoutRH (ctm : ℚ → Int → ℚ) (N L : ℕ) (parentSeq : List Int) :
    NTree → RNG → SimT × RNG
  | .nil, r => (.snil, r)
  | .node nm bl _ cs sb, r =>
    let p := simulateSeqsWithoutRHEdge ctm N L bl parentSeq r
    let q := simulateSeqsWithoutRH ctm N L p.1 cs p.2
    let w := simulateSeqsWithoutRH ctm N L parentSeq sb q.2
    (.snode nm p.1 q.1 w.1, w.2)

/-- Modelled from the spec: the external RNG helper random_int(n) used by
generateRandomSequence in the FREQ_EQUAL branch (its implementation lives
outside src/); it draws a uniform integer in [0, n), modelled as the floor
of u*n for the per-site stream draw u. -/
def random_int (u : ℚ) (n : ℕ) : Int := ⌊u * (n : ℚ)⌋

/-- Embedding of generateRandomSequence (src/main/alisim.cpp lines 145-175).
freqEqual selects the FREQ_EQUAL branch; otherwise each site is drawn from
the model state frequencies through the cumulative sampler.  The branch test
is hoisted into the per-site body; both branches draw exactly once per site,
as in the source. -/
def generateRandomSequence (freqEqual : Bool) (stateFreq : Int → ℚ) (maxN L : ℕ)
    (r : RNG) : List Int × RNG :=
  drawMap (fun _ u =>
    if freqEqual then random_int u maxN
    else getRandomItemWithProbabilityMatrix stateFreq 0 maxN u) L r

/-- Name of the artificial root node.  The constant ROOT_NAME is declared
outside src/; only equality against it is observable here. -/
def ROOT_NAME : String := "_root"

/-- Embedding of convertEncodedSequenceToReadableSequence
(src/main/alisim.cpp lines 368-377); the state-to-text table
convertStateBackStr is an external collaborator passed in as a function. -/
def convertEncodedSequenceToReadableSequence (back : Int → String) : List Int → String
  | [] => ""
  | st :: rest => back st ++ convertEncodedSequenceToReadableSequence back rest

/-- Number of top-level trees of a neighbor forest; for the traversal root
this is its neighbor count, since the root has no dad edge. -/
def topCount : SimT → ℕ
  | .snil => 0
  | .snode _ _ _ sb => 1 + topCount sb

/-- Leaves of a neighbor forest: a non-root node is a leaf in the sense of
Node::isLeaf() (neighbors.size() <= 1) exactly when it has no children. -/
def leafCountF : SimT → ℕ
  | .snil => 0
  | .snode _ _ .snil sb => 1 + leafCountF sb
  | .snode _ _ cs sb => leafCountF cs + leafCountF sb

/-- The tree->leafNum value for a tree rooted at a node with the given
neighbor forest: all forest leaves, plus the root itself when it has at most
one neighbor (the traversal root has exactly as many neighbors as children). -/
def leafNum (rootChildren : SimT) : ℕ :=
  (if topCount rootChildren ≤ 1 then 1 else 0) + leafCountF rootChildren

/-- Embedding of writeASequenceToFile (src/main/alisim.cpp lines 356-366)
on the neighbor forest away from the current node: a line
name-space-decoded-sequence is produced for every leaf whose name differs
from ROOT_NAME, in DFS visitation order. -/
def writeASequenceToFile (back : Int → String) : SimT → List String
  | .snil => []
  | .snode nm seq .snil sb =>
    (if nm = ROOT_NAME then [] else
      [nm ++ " " ++ convertEncodedSequenceToReadableSequence back seq]) ++
    writeASequenceToFile back sb
  | .snode _ _ cs sb => writeASequenceToFile back cs ++ writeASequenceToFile back sb

/-- Embedding of writeSequencesToFile (src/main/alisim.cpp lines 336-354)
applied to the simulated tree.  The output is the header data
(tree->leafNum, sequence_length) followed by the sequence lines.  The writer
is started with node == dad == root, so the root itself is subject to the
same leaf-and-name test as every other node before its forest is traversed. -/
def writeSequencesToFile (back : Int → String) (L : ℕ) (rootName : String)
    (rootSeq : List Int) (rootChildren : SimT) : (ℕ × ℕ) × List String :=
  ((leafNum rootChildren, L),
    (if topCount rootChildren ≤ 1 ∧ rootName ≠ ROOT_NAME then
      [rootName ++ " " ++ convertEncodedSequenceToReadableSequence back rootSeq]
    else []) ++ writeASequenceToFile back rootChildren)

/-- Specification-side list of the records the writer emits for a neighbor
forest: every leaf whose name is not ROOT_NAME, with its sequence, in DFS
visitation order. -/
def leafRecords : SimT → List (String × List Int)
  | .snil => []
  | .snode nm seq .snil sb =>
    (if nm = ROOT_NAME then [] else [(nm, seq)]) ++ leafRecords sb
  | .snode _ _ cs sb => leafRecords cs ++ leafRecords sb

/-- True when no leaf of the neighbor forest is named ROOT_NAME. -/
def noRootNamedLeaf : SimT → Bool
  | .snil => true
  | .snode nm _ .snil sb => decide (nm ≠ ROOT_NAME) && noRootNamedLeaf sb
  | .snode _ _ cs sb => noRootNamedLeaf cs && noRootNamedLeaf sb

/-- Embedding of generateSingleDatasetFromSingleTree
(src/main/alisim.cpp lines 105-118) instantiated with the
no-rate-heterogeneity regime of simulateSeqsForTree: draw the ancestral
sequence, assign it to the root, run the DFS simulation, write the output.
The NTree argument is the traversal root (its sibling list is empty). -/
def generateSingleDatasetFromSingleTree (freqEqual : Bool) (stateFreq : Int → ℚ)
    (ctm : ℚ → Int → ℚ) (back : Int → String) (N L : ℕ) :
    NTree → RNG → (ℕ × ℕ) × List String
  | .nil, _ => ((0, L), [])
  | .node nm _ _ cs _, r =>
    let p := generateRandomSequence freqEqual stateFreq N L r
    let q := simulateSeqsWithoutRH ctm N L p.1 cs p.2
    writeSequencesToFile back L nm p.1 q.1

/-- Constant stream used by the C8 witness. -/
def c8Stream : ℕ → ℚ := fun _ => 1/2

/-- Stream agreeing with c8Stream on the consumed window only. -/
def c8Stream2 : ℕ → ℚ := fun n => if n < 2 then 1/2 else 0

/-- One-edge tree used by the C8 witness. -/
def c8Tree : NTree := .node "R" 0 "" (.node "A" 1 "" .nil .nil) .nil

/-- Transition-matrix provider with row-stochastic rows used by witnesses. -/
def c8Ctm : ℚ → Int → ℚ := fun _ k => if k % 2 = 0 then 3/10 else 7/10

/-- Modelled from the spec: the Alignment state-to-character table for DNA
(convertStateBackStr); the exact table is an external collaborator, this
concrete instance is only used in witnesses. -/
def dnaBack : Int → String :=
  fun st => if st = 0 then "A" else if st = 1 then "C" else if st = 2 then "G" else "T"

/-- Deficient transition row (sums to 4/5) used by the C4 counterexample. -/
def c4BadCtm : ℚ → Int → ℚ := fun _ k => if k = 0 ∨ k = 1 then 2/5 else 0

/-- Stream whose draw exceeds the deficient row total. -/
def c4BadStream : ℕ → ℚ := fun _ => 9/10

/-- Tree with a ROOT_NAME root leaf used by the C6 counterexample: the root
has the single child X, and X has the two leaf children A and B. -/
def c6Tree : NTree :=
  .node ROOT_NAME 0 "" (.node "X" 1 "" (.node "A" 1 "" .nil (.node "B" 1 "" .nil .nil)) .nil) .nil

/-- Pattern matches at the head of the text (helper for the substring test
performed by std::string::find). -/
def startsWithChars : List Char → List Char → Bool
  | [], _ => true
  | _ :: _, [] => false
  | p :: ps, c :: cs => decide (p = c) && startsWithChars ps cs

/-- Embedding of rate_name.find(pat) != std::string::npos: true when pat
occurs as a contiguous substring of the text. -/
def containsChars (pat : List Char) : List Char → Bool
  | [] => startsWithChars pat []
  | c :: cs => startsWithChars pat (c :: cs) || containsChars pat cs

/-- Branch taken by the if / else-if chain of simulateSeqsForTree
(src/main/alisim.cpp lines 206-233).  skipAll records the fall-through when
no branch matches: the chain has no final else and calls no error routine,
so the function then returns normally having simulated nothing. -/
inductive RegimeAction : Type where
  | withoutRH : RegimeAction
  | withRH : RegimeAction
  | invarOnly : RegimeAction
  | skipAll : RegimeAction
deriving DecidableEq

/-- Regime dispatch of simulateSeqsForTree on the rate name. -/
def simulateSeqsForTreeDispatch (rateName : List Char) : RegimeAction :=
  if rateName = [] then .withoutRH
  else if containsChars ['+', 'G'] rateName || containsChars ['+', 'R'] rateName then
    .withRH
  else if containsChars ['+', 'I'] rateName then .invarOnly
  else .skipAll

/-- Embedding of estimateStateWithRH (src/main/alisim.cpp lines 317-334).
The category weights (getProp), per-category rates (getRate) and the
transition-matrix provider (computeTransMatrix) are external collaborators
passed as functions.  Besides the chosen state and the advanced RNG, the
result records the scaled branch lengths for which a transition matrix was
computed, making the absence of a matrix computation in the sentinel branch
observable. -/
def estimateStateWithRH (ctm : ℚ → Int → ℚ) (numCats : ℕ) (catProbs catRate : Int → ℚ)
    (N : ℕ) (bl : ℚ) (dadState : Int) (r : RNG) : Int × RNG × List ℚ :=
  let p := r.next
  let c := getRandomItemWithProbabilityMatrix catProbs 0 numCats p.1
  if c = -1 then (dadState, p.2, [])
  else
    let q := p.2.next
    (getRandomItemWithProbabilityMatrix (ctm (bl * catRate c))
      (dadState * (N : Int)) N q.1, q.2, [bl * catRate c])

/-- Per-site body of the edge loop of simulateSeqsWithRateHeterogeneity
(src/main/alisim.cpp lines 273-276). -/
def simulateSeqsWithRHSite (ctm : ℚ → Int → ℚ) (numCats : ℕ)
    (catProbs catRate : Int → ℚ) (N : ℕ) (bl : ℚ) (ps : List Int) :
    ℕ → RNG → Int × RNG :=
  fun i r =>
    let e := estimateStateWithRH ctm numCats catProbs catRate N bl (ps.getD i 0) r
    (e.1, e.2.1)

/-- Edge loop of simulateSeqsWithRateHeterogeneity: one call of
estimateStateWithRH per site, each consuming fresh draws. -/
def simulateSeqsWithRateHeterogeneityEdge (ctm : ℚ → Int → ℚ) (numCats : ℕ)
    (catProbs catRate : Int → ℚ) (N L : ℕ) (bl : ℚ) (ps : List Int) (r : RNG) :
    List Int × RNG :=
  mapRange (simulateSeqsWithRHSite ctm numCats catProbs catRate N bl ps) L r

/-- Embedding of simulateSeqsWithRateHeterogeneity
(src/main/alisim.cpp lines 264-281): same DFS skeleton as
simulateSeqsWithoutRH, with the per-site rate-category logic of
estimateStateWithRH on every edge. -/
def simulateSeqsWithRateHeterogeneity (ctm : ℚ → Int → ℚ) (numCats : ℕ)
    (catProbs catRate : Int → ℚ) (N L : ℕ) (ps : List Int) :
    NTree → RNG → SimT × RNG
  | .nil, r => (.snil, r)
  | .node nm bl _ cs sb, r =>
    let p := simulateSeqsWithRateHeterogeneityEdge ctm numCats catProbs catRate N L bl ps r
    let q := simulateSeqsWithRateHeterogeneity ctm numCats catProbs catRate N L p.1 cs p.2
    let w := simulateSeqsWithRateHeterogeneity ctm numCats catProbs catRate N L ps sb q.2
    (.snode nm p.1 q.1 w.1, w.2)

/-- Deficient category distribution (total 4/5) for the C2 witness. -/
def c2CatProbs : Int → ℚ := fun k => if k = 0 ∨ k = 1 then 2/5 else 0

/-- Constant category-rate table for the C2 witness. -/
def c2Rate : Int → ℚ := fun _ => 2

/-- Per-site loop of simulateSeqsWithOnlyInvariantSites
(src/main/alisim.cpp lines 296-310): per site a fresh uniform draw decides
invariance against invariant_proportion; an invariant site copies the dad
state, otherwise the cumulative sampler draws from the transition row of the
dad state (consuming its own further uniform draw). -/
def simulateSeqsWithOnlyInvariantSitesEdge (ctm : ℚ → Int → ℚ) (N L : ℕ)
    (invarProp : ℚ) (bl : ℚ) (ps : List Int) (r : RNG) : List Int × RNG :=
  mapRange (fun i r =>
    let d := r.next
    if d.1 ≤ invarProp then (ps.getD i 0, d.2)
    else
      let d2 := d.2.next
      (getRandomItemWithProbabilityMatrix (ctm bl)
        (ps.getD i 0 * (N : Int)) N d2.1, d2.2)) L r

/-- Embedding of simulateSeqsWithOnlyInvariantSites
(src/main/alisim.cpp lines 284-315): the same DFS skeleton as
simulateSeqsWithoutRH with the per-edge, per-site invariance draw. -/
def simulateSeqsWithOnlyInvariantSites (ctm : ℚ → Int → ℚ) (N L : ℕ)
    (invarProp : ℚ) (ps : List Int) : NTree → RNG → SimT × RNG
  | .nil, r => (.snil, r)
  | .node nm bl _ cs sb, r =>
    let p := simulateSeqsWithOnlyInvariantSitesEdge ctm N L invarProp bl ps r
    let q := simulateSeqsWithOnlyInvariantSites ctm N L invarProp p.1 cs p.2
    let w := simulateSeqsWithOnlyInvariantSites ctm N L invarProp ps sb q.2
    (.snode nm p.1 q.1 w.1, w.2)

/-- True when no edge of the forest carries a branch-specific model
attribute. -/
def attrsEmpty : NTree → Bool
  | .nil => true
  | .node _ _ attr cs sb => decide (attr = "") && attrsEmpty cs && attrsEmpty sb

/-- True for the empty forest (used for the child-is-leaf test). -/
def isNilT : NTree → Bool
  | .nil => true
  | .node _ _ _ _ _ => false

namespace AliSimulatorInvar

/-- Embedding of AliSimulatorInvar::initVariables
(src/unnamed/part_000 lines 171-181): one uniform draw per site, performed
once for the whole run before the traversal; rate 0 flags an invariant site,
rate 1 a variable one. -/
def initVariables (invarProp : ℚ) (L : ℕ) (r : RNG) : List ℚ × RNG :=
  drawMap (fun _ u => if u ≤ invarProp then (0 : ℚ) else 1) L r

/-- Embedding of AliSimulatorInvar::simulateASequenceFromBranchAfterInitVariables
(src/unnamed/part_000 lines 144-166).  The per-edge matrix pipeline
(computeTransMatrix at partition_rate*(*it)->length, then
convertProMatrixIntoAccumulatedProMatrix) and the sorted sampler
getRandomItemWithAccumulatedProbMatrixMaxProbFirst are declared outside
src/; they are abstracted by the parameter vd, which receives the scaled
branch length computed before the site loop, the dad state and the RNG.
A site with site-specific rate 0 copies the dad state and consumes no
randomness, exactly as in the source. -/
def simulateASequenceFromBranchAfterInitVariables (vd : ℚ → Int → RNG → Int × RNG)
    (pr : ℚ) (L : ℕ) (rates : List ℚ) (bl : ℚ) (ps : List Int) (r : RNG) :
    List Int × RNG :=
  mapRange (fun i r =>
    if rates.getD i 1 = 0 then (ps.getD i 0, r)
    else vd (pr * bl) (ps.getD i 0) r) L r

/-- Embedding of AliSimulatorInvar::simulateSeqs
(src/unnamed/part_000 lines 31-62).  branchSpecificEvolution (declared
outside src/) is abstracted by bse, applied when the edge carries a model
attribute; permuteSelectedSites (outside src/) is abstracted by pf, applied
to a just-simulated leaf child when FunDi is enabled (the node-is-leaf case
arises only for a leaf traversal root; the theorems below take FunDi
disabled).  The streaming write/release step does not alter the simulated
states and is modelled separately (C7). -/
def simulateSeqs (vd : ℚ → Int → RNG → Int × RNG)
    (bse : ℚ → String → List Int → RNG → List Int × RNG)
    (fundiOn : Bool) (pf : List Int → List Int) (pr : ℚ) (L : ℕ)
    (rates : List ℚ) (ps : List Int) : NTree → RNG → SimT × RNG
  | .nil, r => (.snil, r)
  | .node nm bl attr cs sb, r =>
    let p := if attr.length > 0 then bse bl attr ps r
             else simulateASequenceFromBranchAfterInitVariables vd pr L rates bl ps r
    let sq := if fundiOn && isNilT cs then pf p.1 else p.1
    let q := simulateSeqs vd bse fundiOn pf pr L rates sq cs p.2
    let w := simulateSeqs vd bse fundiOn pf pr L rates ps sb q.2
    (.snode nm sq q.1 w.1, w.2)

/-- Embedding of the rate-initialization and traversal steps of
AliSimulatorInvar::simulateSeqsForTree (src/unnamed/part_000 lines 68-139):
the site-specific rates are produced by initVariables once, before the
traversal, and passed unchanged to simulateSeqs.  The result pairs the
pre-drawn rate array with the simulated forest of the root's children. -/
def simulateSeqsForTree (vd : ℚ → Int → RNG → Int × RNG)
    (bse : ℚ → String → List Int → RNG → List Int × RNG)
    (fundiOn : Bool) (pf : List Int → List Int) (pr invarProp : ℚ) (L : ℕ)
    (rootSeq : List Int) : NTree → RNG → List ℚ × SimT
  | .nil, r => ((initVariables invarProp L r).1, .snil)
  | .node _ _ _ cs _, r =>
    let iv := initVariables invarProp L r
    (iv.1, (simulateSeqs vd bse fundiOn pf pr L iv.1 rootSeq cs iv.2).1)

end AliSimulatorInvar

/-- Agreement of two sequences on all invariant-flagged sites. -/
def seqAgrees (L : ℕ) (rates : List ℚ) (a b : List Int) : Bool :=
  (List.range L).all (fun i => if rates.getD i 1 = 0 then a.getD i 0 == b.getD i 0 else true)

/-- Every node sequence of the simulated forest agrees with the root
sequence on all invariant-flagged sites. -/
def preservedAll (L : ℕ) (rates : List ℚ) (rootSeq : List Int) : SimT → Bool
  | .snil => true
  | .snode _ seq cs sb =>
    seqAgrees L rates seq rootSeq && preservedAll L rates rootSeq cs &&
      preservedAll L rates rootSeq sb

/-- Stream driving the C1 counterexample: invariance draw 3/10 at the first
edge, 9/10 at the second, then 1/2 for the state draw. -/
def c1Stream : ℕ → ℚ := fun n => if n = 0 then 3/10 else if n = 1 then 9/10 else 1/2

/-- Transition provider whose row for state 0 is (0, 1). -/
def c1Ctm : ℚ → Int → ℚ := fun _ k => if k = 1 then 1 else 0

/-- Observable events of the streaming traversal (modelled for C7). -/
inductive SimEvent : Type where
  | consume (parent child : String) : SimEvent
  | writeLeaf (nm : String) : SimEvent
  | release (nm : String) : SimEvent
deriving DecidableEq

/-- Membership test on name lists (structural stand-in for the release set). -/
def memStr (x : String) : List String → Bool
  | [] => false
  | y :: ys => decide (y = x) || memStr x ys

/-- Modelled from the spec: the per-edge write-and-release bookkeeping of
AliSimulator::writeAndDeleteSequenceImmediatelyIfPossible (declared outside
src/), per spec §4.3/§4.5.  Processing the edge into a child consumes the
parent's sequence; a leaf child — whose children-simulated counter equals
its neighbour count minus one, i.e. zero, immediately — is serialized and
released on the spot; an internal node is released once every outgoing edge
except the one it arrived on has been processed, i.e. after the events of
its child forest.  For the traversal root, which has no incoming edge, the
all-outgoing-edges reading of §4.5 applies. -/
def eventsF (p : String) : NTree → List SimEvent
  | .nil => []
  | .node nm _ _ .nil sb =>
    .consume p nm :: .writeLeaf nm :: .release nm :: eventsF p sb
  | .node nm _ _ cs sb =>
    .consume p nm :: (eventsF nm cs ++ (.release nm :: eventsF p sb))

/-- Events of one whole run started at the traversal root. -/
def runEvents : NTree → List SimEvent
  | .nil => []
  | .node nm _ _ cs _ => eventsF nm cs ++ [.release nm]

/-- Names of all nodes of a forest, in preorder. -/
def namesF : NTree → List String
  | .nil => []
  | .node nm _ _ cs sb => nm :: (namesF cs ++ namesF sb)

/-- Name of the traversal root followed by the names below it. -/
def rootNames : NTree → List String
  | .nil => []
  | .node nm _ _ cs _ => nm :: namesF cs

/-- Number of leaves of a forest carrying the given name. -/
def leafNamedCountF (x : String) : NTree → ℕ
  | .nil => 0
  | .node nm _ _ .nil sb => (if nm = x then 1 else 0) + leafNamedCountF x sb
  | .node _ _ _ cs sb => leafNamedCountF x cs + leafNamedCountF x sb

/-- Leaves named x in the forest below the traversal root. -/
def rootLeafNamedCount (x : String) : NTree → ℕ
  | .nil => 0
  | .node _ _ _ cs _ => leafNamedCountF x cs

/-- Scans the event list, accumulating released node names, and reports
whether every consume event reads a parent sequence that is not yet
released. -/
def consumeAfterReleaseFree : List String → List SimEvent → Bool
  | _, [] => true
  | rel, .consume p _ :: es => !(memStr p rel) && consumeAfterReleaseFree rel es
  | rel, .writeLeaf _ :: es => consumeAfterReleaseFree rel es
  | rel, .release nm :: es => consumeAfterReleaseFree (nm :: rel) es

/-- True when every entry of the column equals the first one (a constant
alignment column). -/
def isConstantCol : List Int → Bool
  | [] => true
  | x :: xs => xs.all (fun y => y == x)

/-- Modelled from the spec: AliSimulator::removeConstantSites (declared
outside src/) removes exactly the given number of excess constant columns,
scanning the alignment columns in fixed left-to-right order (spec §4.6). -/
def removeConstantSites : ℕ → List (List Int) → List (List Int)
  | 0, cols => cols
  | _ + 1, [] => []
  | k + 1, c :: cs =>
    if isConstantCol c then removeConstantSites k cs
    else c :: removeConstantSites (k + 1) cs

/-- Post-trim step of AliSimulatorInvar::simulateSeqsForTree
(src/unnamed/part_000 lines 136-138): trimming runs only when
length_ratio > 1, and removes the excess inflated-minus-requested columns. -/
def postTrimConstantSites (lengthInflation : ℚ) (requested : ℕ)
    (cols : List (List Int)) : List (List Int) :=
  if 1 < lengthInflation then removeConstantSites (cols.length - requested) cols
  else cols

/-- The FAKE fixed ancestral sequence of
retrieveAncestralSequenceFromInputFile (src/main/alisim.cpp line 135). -/
def ancestralSequenceString : String :=
  "GGAGAGTGTCCTGACCTGGAAGGAATACCTGTAAAGGGGGCGCCATTTATAAAACTACATAGATGGCTCAAAACTAGGACCATAATGCCGGTCCTCAAGG"

/-- Embedding of retrieveAncestralSequenceFromInputFile
(src/main/alisim.cpp lines 130-143): the root sequence is the fixed string
converted character by character; the requested output length plays no
role.  convertState is the external Alignment character-to-state table. -/
def retrieveAncestralSequenceFromInputFile (convertState : Char → Int) : List Int :=
  ancestralSequenceString.data.map convertState

/-- Bounds-checked per-site loop of simulateSeqsWithoutRH (src/main/alisim.cpp
lines 251-256): the read node->sequence[i] of the parent sequence is
modelled with List.get?, so the out-of-bounds vector read surfaces as none;
i is the site, ix the RNG position, the last argument the remaining sites. -/
def checkedSiteLoop (tm : Int → ℚ) (N : ℕ) (ps : List Int) (s : ℕ → ℚ) :
    ℕ → ℕ → ℕ → Option (List Int)
  | _, _, 0 => some []
  | i, ix, rem + 1 =>
    match ps.get? i with
    | none => none
    | some st =>
      match checkedSiteLoop tm N ps s (i + 1) (ix + 1) rem with
      | none => none
      | some rest =>
        some (getRandomItemWithProbabilityMatrix tm (st * (N : Int)) N (s ix) :: rest)

/-- Modelled from the spec: the Alignment character-to-state table for DNA
(convertState); witness-only concrete instance. -/
def dnaConvert : Char → Int :=
  fun c => if c = 'A' then 0 else if c = 'C' then 1 else if c = 'G' then 2
    else if c = 'T' then 3 else -1

/-- Common DFS skeleton shared verbatim by the four per-edge traversals
(simulateSeqsWithoutRH, simulateSeqsWithRateHeterogeneity,
simulateSeqsWithOnlyInvariantSites and, on common-model edges,
AliSimulatorInvar::simulateSeqs): simulate the child's sequence from the
parent's, descend into the child, then continue with the next sibling. -/
def traverseEdges (edge : List Int → ℚ → RNG → List Int × RNG) :
    List Int → NTree → RNG → SimT × RNG
  | _, .nil, r => (.snil, r)
  | ps, .node nm bl _ cs sb, r =>
    let p := edge ps bl r
    let q := traverseEdges edge p.1 cs p.2
    let w := traverseEdges edge ps sb q.2
    (.snode nm p.1 q.1 w.1, w.2)

/-- Shape of the tree when the regime dispatch falls through every branch:
no node->sequence is ever assigned, so every sequence stays the default
empty vector. -/
def unsimulated : NTree → SimT
  | .nil => .snil
  | .node nm _ _ cs sb => .snode nm [] (unsimulated cs) (unsimulated sb)

/-- The simulation step of simulateSeqsForTree (src/main/alisim.cpp lines
195-237) with its full regime dispatch on the rate name: empty name runs
simulateSeqsWithoutRH, a +G/+R name runs simulateSeqsWithRateHeterogeneity
(the category-weight array built from getProp is the catProbs parameter), a
+I-only name runs simulateSeqsWithOnlyInvariantSites, and any other name
selects no branch, leaving every sequence unassigned. -/
def simulateSeqsForTreeSim (ctm : ℚ → Int → ℚ) (numCats : ℕ)
    (catProbs catRate : Int → ℚ) (N L : ℕ) (rateName : List Char)
    (invarProp : ℚ) (rootSeq : List Int) (cs : NTree) (r : RNG) : SimT × RNG :=
  match simulateSeqsForTreeDispatch rateName with
  | .withoutRH => simulateSeqsWithoutRH ctm N L rootSeq cs r
  | .withRH =>
    simulateSeqsWithRateHeterogeneity ctm numCats catProbs catRate N L rootSeq cs r
  | .invarOnly => simulateSeqsWithOnlyInvariantSites ctm N L invarProp rootSeq cs r
  | .skipAll => (unsimulated cs, r)

/-- Embedding of generateSingleDatasetFromSingleTree
(src/main/alisim.cpp lines 105-118) with the full regime dispatch of
simulateSeqsForTree: draw the ancestral sequence, assign it to the root,
simulate per the rate-name regime, write the output. -/
def generateSingleDatasetFromSingleTreeRegimes (freqEqual : Bool)
    (stateFreq : Int → ℚ) (ctm : ℚ → Int → ℚ) (numCats : ℕ)
    (catProbs catRate : Int → ℚ) (back : Int → String) (N L : ℕ)
    (rateName : List Char) (invarProp : ℚ) :
    NTree → RNG → (ℕ × ℕ) × List String
  | .nil, _ => ((0, L), [])
  | .node nm _ _ cs _, r =>
    let p := generateRandomSequence freqEqual stateFreq N L r
    let q := simulateSeqsForTreeSim ctm numCats catProbs catRate N L rateName
      invarProp p.1 cs p.2
    writeSequencesToFile back L nm p.1 q.1

/-- Modelled from the spec: getRandomItemWithAccumulatedProbMatrixMaxProbFirst
(declared outside src/) makes exactly one fresh uniform draw per call
(spec §4.1: both sampler variants are invoked with a fresh uniform draw per
call) and returns a pure function of the prepared distribution context —
the scaled branch length and the dad state — and that draw; vdOf g is the
variable-site sampler obtained from any such pure function g. -/
def vdOf (g : ℚ → Int → ℚ → Int) : ℚ → Int → RNG → Int × RNG :=
  fun bl d r => let p := r.next; (g bl d p.1, p.2)

/-- Modelled from the spec: the streaming writer of §4.5 serializes each
leaf at the moment of its visit, so over one run the output stream receives
exactly the leaves of the simulated forest in DFS visitation order. -/
def streamedLeafLines (back : Int → String) : SimT → List String
  | .snil => []
  | .snode nm seq .snil sb =>
    (nm ++ " " ++ convertEncodedSequenceToReadableSequence back seq) ::
      streamedLeafLines back sb
  | .snode _ _ cs sb => streamedLeafLines back cs ++ streamedLeafLines back sb

/-- The observable result of one streaming run of
AliSimulatorInvar::simulateSeqsForTree (src/unnamed/part_000 lines 68-139)
with the variable-site sampler modelled by vdOf g: the pre-drawn rate array,
the simulated forest, and the lines streamed to the output. -/
def streamedRunInvar (g : ℚ → Int → ℚ → Int)
    (bse : ℚ → String → List Int → RNG → List Int × RNG)
    (pf : List Int → List Int) (pr invarProp : ℚ) (L : ℕ) (back : Int → String)
    (rootSeq : List Int) (t : NTree) (r : RNG) : List ℚ × SimT × List String :=
  let res := AliSimulatorInvar.simulateSeqsForTree (vdOf g) bse false pf pr
    invarProp L rootSeq t r
  (res.1, res.2, streamedLeafLines back res.2)

/-- Named per-site body of simulateSeqsWithOnlyInvariantSitesEdge, for the
draw-window lemmas. -/
def onlyInvarSite (ctm : ℚ → Int → ℚ) (N : ℕ) (invarProp bl : ℚ) (ps : List Int) :
    ℕ → RNG → Int × RNG :=
  fun i r =>
    let d := r.next
    if d.1 ≤ invarProp then (ps.getD i 0, d.2)
    else
      let d2 := d.2.next
      (getRandomItemWithProbabilityMatrix (ctm bl)
        (ps.getD i 0 * (N : Int)) N d2.1, d2.2)

/-- Named per-site body of
AliSimulatorInvar::simulateASequenceFromBranchAfterInitVariables with the
variable-site sampler vdOf g, for the draw-window lemmas. -/
def invarClassSite (g : ℚ → Int → ℚ → Int) (pr : ℚ) (rates : List ℚ) (bl : ℚ)
    (ps : List Int) : ℕ → RNG → Int × RNG :=
  fun i r =>
    if rates.getD i 1 = 0 then (ps.getD i 0, r)
    else vdOf g (pr * bl) (ps.getD i 0) r

/-- Stream for the revised C8 witness, agreeing with c8Stream on the first
three draws only. -/
def c8Stream3 : ℕ → ℚ := fun n => if n < 3 then 1/2 else 0

-- ===================================================================
-- Theorems
-- ===================================================================

theorem cumulSum_mono (pm : Int → ℚ) (start : Int) (K : ℕ)
    (hnn : ∀ j < K, 0 ≤ pm (start + j)) :
    ∀ a b, a ≤ b → b ≤ K → cumulSum pm start a ≤ cumulSum pm start b := by
  intro a b hab hbK
  induction b with
  | zero => simp [Nat.le_zero.mp hab]
  | succ n ih =>
    rcases Nat.lt_or_ge a (n + 1) with h | h
    · have h1 : cumulSum pm start a ≤ cumulSum pm start n :=
        ih (Nat.lt_succ_iff.mp h) (Nat.le_of_succ_le hbK)
      have h2 : 0 ≤ pm (start + n) := hnn n (Nat.lt_of_succ_le hbK)
      calc cumulSum pm start a ≤ cumulSum pm start n := h1
        _ ≤ cumulSum pm start n + pm (start + n) := by linarith
        _ = cumulSum pm start (n + 1) := rfl
    · have : a = n + 1 := Nat.le_antisymm hab h
      simp [this]

theorem getRandomItemAux_notFound (pm : Int → ℚ) (start : Int) (u : ℚ) :
    ∀ rem i, (∀ k < rem, cumulSum pm start (i + k + 1) < u) →
      getRandomItemAux pm start u (cumulSum pm start i) i rem = -1 := by
  intro rem
  induction rem with
  | zero => intro i _; rfl
  | succ n ih =>
    intro i h
    have h0 : cumulSum pm start (i + 1) < u := by
      have := h 0 (Nat.succ_pos n); simpa using this
    have hacc : cumulSum pm start i + pm (start + i) = cumulSum pm start (i + 1) := rfl
    rw [getRandomItemAux]
    simp only [hacc]
    rw [if_neg (by exact not_le.mpr h0)]
    exact ih (i + 1) (fun k hk => by
      have := h (k + 1) (Nat.succ_lt_succ hk)
      have heq : i + (k + 1) + 1 = i + 1 + k + 1 := by omega
      rwa [heq] at this)

theorem getRandomItemAux_found (pm : Int → ℚ) (start : Int) (u : ℚ) :
    ∀ rem k i, k < rem → u ≤ cumulSum pm start (i + k + 1) →
      (∀ j < k, cumulSum pm start (i + j + 1) < u) →
      getRandomItemAux pm start u (cumulSum pm start i) i rem = ((i + k : ℕ) : Int) := by
  intro rem
  induction rem with
  | zero => intro k i hk; omega
  | succ n ih =>
    intro k i hk hu hless
    have hacc : cumulSum pm start i + pm (start + i) = cumulSum pm start (i + 1) := rfl
    rw [getRandomItemAux]
    simp only [hacc]
    cases k with
    | zero =>
      rw [if_pos (by simpa using hu)]
      simp
    | succ m =>
      have h0 : cumulSum pm start (i + 1) < u := by
        have := hless 0 (Nat.succ_pos m); simpa using this
      rw [if_neg (not_le.mpr h0)]
      have := ih m (i + 1) (Nat.lt_of_succ_lt_succ hk)
        (by have heq : i + 1 + m + 1 = i + (m + 1) + 1 := by omega
            rwa [heq])
        (fun j hj => by
          have := hless (j + 1) (Nat.succ_lt_succ hj)
          have heq : i + (j + 1) + 1 = i + 1 + j + 1 := by omega
          rwa [heq] at this)
      rw [this]
      congr 1
      omega

theorem mapSteps_shift {α : Type} (f : ℕ → RNG → α × RNG) :
    ∀ (k i : ℕ) (r : RNG),
      mapSteps f (i + 1) ((f i r).2) k = mapSteps f i r (k + 1) := by
  intro k
  induction k with
  | zero => intro i r; simp [mapSteps]
  | succ m ih =>
    intro i r
    show (f (i + 1 + m) (mapSteps f (i + 1) ((f i r).2) m)).2 = _
    rw [ih i r]
    have : i + 1 + m = i + (m + 1) := by omega
    rw [this]
    rfl

theorem mapRangeAux_length {α : Type} (f : ℕ → RNG → α × RNG) :
    ∀ (n i : ℕ) (r : RNG), (mapRangeAux f i n r).1.length = n := by
  intro n
  induction n with
  | zero => intro i r; rfl
  | succ m ih => intro i r; simp [mapRangeAux, ih]

theorem mapRangeAux_get {α : Type} (f : ℕ → RNG → α × RNG) :
    ∀ (n k i : ℕ) (r : RNG), k < n →
      (mapRangeAux f i n r).1.get? k = some ((f (i + k) (mapSteps f i r k)).1) := by
  intro n
  induction n with
  | zero => intro k i r hk; omega
  | succ m ih =>
    intro k i r hk
    cases k with
    | zero => simp [mapRangeAux, mapSteps]
    | succ j =>
      have hj : j < m := by omega
      show (mapRangeAux f (i + 1) m ((f i r).2)).1.get? j = _
      rw [ih j (i + 1) ((f i r).2) hj, mapSteps_shift f j i r]
      have : i + 1 + j = i + (j + 1) := by omega
      rw [this]

theorem mapRange_get {α : Type} (f : ℕ → RNG → α × RNG) (n k : ℕ) (r : RNG)
    (hk : k < n) :
    (mapRange f n r).1.get? k = some ((f k (mapSteps f 0 r k)).1) := by
  have := mapRangeAux_get f n k 0 r hk
  simpa [mapRange] using this

theorem drawMap_eq {α : Type} (g : ℕ → ℚ → α) :
    ∀ (n i : ℕ) (s : ℕ → ℚ) (ix : ℕ),
      mapRangeAux (fun i r => let p := r.next; (g i p.1, p.2)) i n ⟨s, ix⟩ =
        ((List.range n).map (fun k => g (i + k) (s (ix + k))), ⟨s, ix + n⟩) := by
  intro n
  induction n with
  | zero => intro i s ix; simp [mapRangeAux]
  | succ m ih =>
    intro i s ix
    rw [mapRangeAux]
    show ((g i (s ix)) :: (mapRangeAux _ (i + 1) m ⟨s, ix + 1⟩).1,
          (mapRangeAux _ (i + 1) m ⟨s, ix + 1⟩).2) = _
    rw [ih (i + 1) s (ix + 1)]
    refine Prod.ext ?_ ?_
    · show g i (s ix) :: (List.range m).map (fun k => g (i + 1 + k) (s (ix + 1 + k))) = _
      rw [List.range_succ_eq_map, List.map_cons, List.map_map]
      simp only [add_zero]
      congr 1
      apply List.map_congr_left
      intro a _
      show g (i + 1 + a) (s (ix + 1 + a)) = g (i + (a + 1)) (s (ix + (a + 1)))
      have h1 : i + 1 + a = i + (a + 1) := by omega
      have h2 : ix + 1 + a = ix + (a + 1) := by omega
      rw [h1, h2]
    · show (⟨s, ix + 1 + m⟩ : RNG) = ⟨s, ix + (m + 1)⟩
      have : ix + 1 + m = ix + (m + 1) := by omega
      rw [this]

theorem drawMap_spec {α : Type} (g : ℕ → ℚ → α) (n : ℕ) (s : ℕ → ℚ) (ix : ℕ) :
    drawMap g n ⟨s, ix⟩ =
      ((List.range n).map (fun k => g k (s (ix + k))), ⟨s, ix + n⟩) := by
  have := drawMap_eq g n 0 s ix
  simpa [drawMap, mapRange] using this

/-- Claim C3.  For every distribution over K outcomes (nonnegative entries)
and every uniform draw u, getRandomItemWithProbabilityMatrix returns the
smallest index i with 0 ≤ i < K whose cumulative sum from the start offset
through i is at least u; it returns the sentinel -1 when the total cumulative
sum over all K entries is strictly less than u. -/
theorem C3_cumulative_sampler (pm : Int → ℚ) (start : Int) (K : ℕ) (u : ℚ)
    (hK : 0 < K) (hnn : ∀ j < K, 0 ≤ pm (start + j)) :
    (cumulSum pm start K < u →
      getRandomItemWithProbabilityMatrix pm start K u = -1) ∧
    (u ≤ cumulSum pm start K →
      ∃ i : ℕ, i < K ∧ getRandomItemWithProbabilityMatrix pm start K u = (i : Int) ∧
        u ≤ cumulSum pm start (i + 1) ∧ ∀ j < i, cumulSum pm start (j + 1) < u) := by
  constructor
  · intro htot
    have h0 : cumulSum pm start 0 = 0 := rfl
    have := getRandomItemAux_notFound pm start u K 0 (fun k hk => by
      have hle : cumulSum pm start (0 + k + 1) ≤ cumulSum pm start K :=
        cumulSum_mono pm start K hnn (0 + k + 1) K (by omega) (le_refl K)
      linarith)
    rw [getRandomItemWithProbabilityMatrix]
    rw [← h0]
    exact this
  · intro htot
    have hex : ∃ i, u ≤ cumulSum pm start (i + 1) := by
      refine ⟨K - 1, ?_⟩
      have : K - 1 + 1 = K := by omega
      rw [this]; exact htot
    classical
    let i0 := Nat.find hex
    have hP : u ≤ cumulSum pm start (i0 + 1) := Nat.find_spec hex
    have hmin : ∀ j < i0, cumulSum pm start (j + 1) < u := by
      intro j hj
      have := Nat.find_min hex hj
      exact lt_of_not_le this
    have hi0K : i0 < K := by
      have : i0 ≤ K - 1 := Nat.find_min' hex (by
        have : K - 1 + 1 = K := by omega
        rw [this]; exact htot)
      omega
    refine ⟨i0, hi0K, ?_, hP, hmin⟩
    have h0 : cumulSum pm start 0 = 0 := rfl
    have := getRandomItemAux_found pm start u K i0 0 hi0K
      (by simpa using hP) (fun j hj => by simpa using hmin j hj)
    rw [getRandomItemWithProbabilityMatrix, ← h0]
    simpa using this

/-- Witness for C3 at a concrete two-outcome distribution and u = 1/2. -/
theorem C3_cumulative_sampler_witness :
    (0 < 2 ∧ (∀ j : ℕ, j < 2 → 0 ≤ c3WitnessPm ((0 : Int) + (j : Int))) ∧
      (1/2 : ℚ) ≤ cumulSum c3WitnessPm 0 2) ∧
    (∃ i : ℕ, i < 2 ∧
      getRandomItemWithProbabilityMatrix c3WitnessPm 0 2 (1/2) = (i : Int) ∧
      (1/2 : ℚ) ≤ cumulSum c3WitnessPm 0 (i + 1) ∧
      ∀ j < i, cumulSum c3WitnessPm 0 (j + 1) < (1/2 : ℚ)) :=
  ⟨⟨by norm_num,
    fun j hj => by interval_cases j <;> norm_num [c3WitnessPm],
    by norm_num [cumulSum, c3WitnessPm]⟩,
    (C3_cumulative_sampler c3WitnessPm 0 2 (1/2) (by norm_num)
        (fun j hj => by interval_cases j <;> norm_num [c3WitnessPm])).2
      (by norm_num [cumulSum, c3WitnessPm])⟩

theorem simulateSeqsWithoutRHEdge_spec (ctm : ℚ → Int → ℚ) (N L : ℕ) (bl : ℚ)
    (ps : List Int) (s : ℕ → ℚ) (ix : ℕ) :
    simulateSeqsWithoutRHEdge ctm N L bl ps ⟨s, ix⟩ =
      ((List.range L).map (fun k =>
        getRandomItemWithProbabilityMatrix (ctm bl)
          (ps.getD k 0 * (N : Int)) N (s (ix + k))),
       ⟨s, ix + L⟩) :=
  drawMap_spec _ L s ix

theorem simulateSeqsWithoutRH_rng (ctm : ℚ → Int → ℚ) (N L : ℕ) :
    ∀ (t : NTree) (ps : List Int) (s : ℕ → ℚ) (ix : ℕ),
      (simulateSeqsWithoutRH ctm N L ps t ⟨s, ix⟩).2 = ⟨s, ix + L * edgeCount t⟩ := by
  intro t
  induction t with
  | nil => intro ps s ix; simp [simulateSeqsWithoutRH, edgeCount]
  | node nm bl attr cs sb ihcs ihsb =>
    intro ps s ix
    simp only [simulateSeqsWithoutRH]
    rw [simulateSeqsWithoutRHEdge_spec]
    simp only
    rw [ihcs, ihsb]
    have : ix + L + L * edgeCount cs + L * edgeCount sb =
        ix + L * edgeCount (NTree.node nm bl attr cs sb) := by
      show _ = ix + L * (1 + edgeCount cs + edgeCount sb)
      rw [Nat.mul_add, Nat.mul_add, Nat.mul_one]
      omega
    rw [this]

theorem simulateSeqsWithoutRH_agree (ctm : ℚ → Int → ℚ) (N L : ℕ) :
    ∀ (t : NTree) (ps : List Int) (s s2 : ℕ → ℚ) (ix : ℕ),
      (∀ n < L * edgeCount t, s (ix + n) = s2 (ix + n)) →
      (simulateSeqsWithoutRH ctm N L ps t ⟨s, ix⟩).1 =
        (simulateSeqsWithoutRH ctm N L ps t ⟨s2, ix⟩).1 := by
  intro t
  induction t with
  | nil => intro ps s s2 ix _; rfl
  | node nm bl attr cs sb ihcs ihsb =>
    intro ps s s2 ix h
    have hbound : ∀ n, n < L → n < L * edgeCount (NTree.node nm bl attr cs sb) := by
      intro n hn
      have h1 : L ≤ L * (1 + edgeCount cs + edgeCount sb) :=
        Nat.le_mul_of_pos_right L (by omega)
      show n < L * (1 + edgeCount cs + edgeCount sb)
      omega
    have hedge : (List.range L).map (fun k =>
        getRandomItemWithProbabilityMatrix (ctm bl)
          (ps.getD k 0 * (N : Int)) N (s (ix + k))) =
        (List.range L).map (fun k =>
        getRandomItemWithProbabilityMatrix (ctm bl)
          (ps.getD k 0 * (N : Int)) N (s2 (ix + k))) := by
      apply List.map_congr_left
      intro a ha
      rw [h a (hbound a (List.mem_range.mp ha))]
    have hcs : ∀ psq, (simulateSeqsWithoutRH ctm N L psq cs ⟨s, ix + L⟩).1 =
        (simulateSeqsWithoutRH ctm N L psq cs ⟨s2, ix + L⟩).1 := by
      intro psq
      apply ihcs
      intro n hn
      have heq : ix + L + n = ix + (L + n) := by omega
      rw [heq]
      apply h
      show L + n < L * (1 + edgeCount cs + edgeCount sb)
      rw [Nat.mul_add, Nat.mul_add, Nat.mul_one]
      have : L * edgeCount sb ≥ 0 := Nat.zero_le _
      omega
    have hsb : ∀ ix2, (∀ n < L * edgeCount sb, s (ix2 + n) = s2 (ix2 + n)) →
        (simulateSeqsWithoutRH ctm N L ps sb ⟨s, ix2⟩).1 =
        (simulateSeqsWithoutRH ctm N L ps sb ⟨s2, ix2⟩).1 := fun ix2 hw => ihsb ps s s2 ix2 hw
    simp only [simulateSeqsWithoutRH]
    rw [simulateSeqsWithoutRHEdge_spec, simulateSeqsWithoutRHEdge_spec]
    simp only
    rw [hedge]
    rw [simulateSeqsWithoutRH_rng, simulateSeqsWithoutRH_rng]
    rw [hcs]
    rw [hsb (ix + L + L * edgeCount cs) ?_]
    intro n hn
    have heq : ix + L + L * edgeCount cs + n = ix + (L + L * edgeCount cs + n) := by omega
    rw [heq]
    apply h
    show L + L * edgeCount cs + n < L * (1 + edgeCount cs + edgeCount sb)
    rw [Nat.mul_add, Nat.mul_add, Nat.mul_one]
    omega

/-- The complete no-rate-heterogeneity pipeline (ancestral draw, DFS
simulation, output writing) is a function of the finite stream window
actually consumed: two runs whose random streams agree on the L + L*edges
draws starting at the current position produce identical output. -/
theorem generateSingleDatasetFromSingleTree_agree (freqEqual : Bool) (stateFreq : Int → ℚ)
    (ctm : ℚ → Int → ℚ) (back : Int → String) (N L : ℕ) (t : NTree)
    (s s2 : ℕ → ℚ) (ix : ℕ)
    (h : ∀ n < L + L * rootForestEdges t, s (ix + n) = s2 (ix + n)) :
    generateSingleDatasetFromSingleTree freqEqual stateFreq ctm back N L t ⟨s, ix⟩ =
      generateSingleDatasetFromSingleTree freqEqual stateFreq ctm back N L t ⟨s2, ix⟩ := by
  cases t with
  | nil => rfl
  | node nm bl attr cs sb =>
    have hroot : generateRandomSequence freqEqual stateFreq N L ⟨s, ix⟩ =
        ((List.range L).map (fun k =>
          if freqEqual then random_int (s (ix + k)) N
          else getRandomItemWithProbabilityMatrix stateFreq 0 N (s (ix + k))),
         ⟨s, ix + L⟩) := drawMap_spec _ L s ix
    have hroot2 : generateRandomSequence freqEqual stateFreq N L ⟨s2, ix⟩ =
        ((List.range L).map (fun k =>
          if freqEqual then random_int (s2 (ix + k)) N
          else getRandomItemWithProbabilityMatrix stateFreq 0 N (s2 (ix + k))),
         ⟨s2, ix + L⟩) := drawMap_spec _ L s2 ix
    have hrootEq : (List.range L).map (fun k =>
          if freqEqual then random_int (s (ix + k)) N
          else getRandomItemWithProbabilityMatrix stateFreq 0 N (s (ix + k))) =
        (List.range L).map (fun k =>
          if freqEqual then random_int (s2 (ix + k)) N
          else getRandomItemWithProbabilityMatrix stateFreq 0 N (s2 (ix + k))) := by
      apply List.map_congr_left
      intro a ha
      rw [h a (by
        have := List.mem_range.mp ha
        show a < L + L * rootForestEdges (NTree.node nm bl attr cs sb)
        omega)]
    simp only [generateSingleDatasetFromSingleTree]
    rw [hroot, hroot2]
    simp only
    rw [hrootEq]
    have hsim : (simulateSeqsWithoutRH ctm N L ((List.range L).map (fun k =>
          if freqEqual then random_int (s2 (ix + k)) N
          else getRandomItemWithProbabilityMatrix stateFreq 0 N (s2 (ix + k))))
        cs ⟨s, ix + L⟩).1 =
        (simulateSeqsWithoutRH ctm N L ((List.range L).map (fun k =>
          if freqEqual then random_int (s2 (ix + k)) N
          else getRandomItemWithProbabilityMatrix stateFreq 0 N (s2 (ix + k))))
        cs ⟨s2, ix + L⟩).1 := by
      apply simulateSeqsWithoutRH_agree
      intro n hn
      have heq : ix + L + n = ix + (L + n) := by omega
      rw [heq]
      apply h
      show L + n < L + L * rootForestEdges (NTree.node nm bl attr cs sb)
      rw [show rootForestEdges (NTree.node nm bl attr cs sb) = edgeCount cs from rfl]
      omega
    rw [hsim]

theorem simulateSeqsWithoutRHEdge_getD (ctm : ℚ → Int → ℚ) (N L : ℕ) (bl : ℚ)
    (ps : List Int) (s : ℕ → ℚ) (ix : ℕ) (i : ℕ) (hi : i < L) :
    (simulateSeqsWithoutRHEdge ctm N L bl ps ⟨s, ix⟩).1.getD i 0 =
      getRandomItemWithProbabilityMatrix (ctm bl)
        (ps.getD i 0 * (N : Int)) N (s (ix + i)) := by
  rw [simulateSeqsWithoutRHEdge_spec]
  simp only
  rw [List.getD_eq_get?, List.get?_map, List.get?_range hi]
  rfl

/-- Claim C4 (amended).  simulateSeqsWithoutRH stores the sampler's return
value into the child site verbatim; the stored value lies in [0, N) for
every site whenever the cumulative total of the scanned transition-matrix
row reaches the site's uniform draw (with nonnegative row entries) — in
particular for exactly row-stochastic rows.  The sentinel is not intercepted
by this caller, so the in-range guarantee holds only under that hypothesis. -/
theorem C4_sites_in_range (ctm : ℚ → Int → ℚ) (N L : ℕ) (bl : ℚ) (ps : List Int)
    (s : ℕ → ℚ) (ix : ℕ) (hN : 0 < N)
    (h : ∀ i < L, (∀ j < N, 0 ≤ ctm bl (ps.getD i 0 * (N : Int) + j)) ∧
      s (ix + i) ≤ cumulSum (ctm bl) (ps.getD i 0 * (N : Int)) N) :
    ((simulateSeqsWithoutRHEdge ctm N L bl ps ⟨s, ix⟩).1).length = L ∧
    ∀ i < L, 0 ≤ (simulateSeqsWithoutRHEdge ctm N L bl ps ⟨s, ix⟩).1.getD i 0 ∧
      (simulateSeqsWithoutRHEdge ctm N L bl ps ⟨s, ix⟩).1.getD i 0 < (N : Int) := by
  constructor
  · rw [simulateSeqsWithoutRHEdge_spec]
    simp
  · intro i hi
    rw [simulateSeqsWithoutRHEdge_getD ctm N L bl ps s ix i hi]
    obtain ⟨hnn, htot⟩ := h i hi
    obtain ⟨k, hkN, hkeq, -, -⟩ :=
      (C3_cumulative_sampler (ctm bl) (ps.getD i 0 * (N : Int)) N (s (ix + i))
        hN hnn).2 htot
    rw [hkeq]
    exact ⟨Int.ofNat_nonneg k, by exact_mod_cast hkN⟩

/-- Witness for C4 at a one-site edge with an exactly stochastic row. -/
theorem C4_sites_in_range_witness :
    (0 < 2 ∧ (∀ i : ℕ, i < 1 →
      (∀ j : ℕ, j < 2 →
        0 ≤ c8Ctm 1 (([(0 : Int)].getD i 0) * ((2 : ℕ) : Int) + (j : Int))) ∧
      c8Stream (0 + i) ≤ cumulSum (c8Ctm 1) (([(0 : Int)].getD i 0) * ((2 : ℕ) : Int)) 2)) ∧
    (((simulateSeqsWithoutRHEdge c8Ctm 2 1 1 [0] ⟨c8Stream, 0⟩).1).length = 1 ∧
      ∀ i < 1, 0 ≤ (simulateSeqsWithoutRHEdge c8Ctm 2 1 1 [0] ⟨c8Stream, 0⟩).1.getD i 0 ∧
        (simulateSeqsWithoutRHEdge c8Ctm 2 1 1 [0] ⟨c8Stream, 0⟩).1.getD i 0 <
          ((2 : ℕ) : Int)) :=
  have hh : ∀ i : ℕ, i < 1 →
      (∀ j : ℕ, j < 2 →
        0 ≤ c8Ctm 1 (([(0 : Int)].getD i 0) * ((2 : ℕ) : Int) + (j : Int))) ∧
      c8Stream (0 + i) ≤ cumulSum (c8Ctm 1) (([(0 : Int)].getD i 0) * ((2 : ℕ) : Int)) 2 :=
    fun i hi => by
      interval_cases i
      refine ⟨fun j hj => ?_, ?_⟩
      · interval_cases j <;> norm_num [c8Ctm]
      · norm_num [c8Ctm, c8Stream, cumulSum]
  ⟨⟨by norm_num, hh⟩, C4_sites_in_range c8Ctm 2 1 1 [0] c8Stream 0 (by norm_num) hh⟩

/-- Counterexample to C4 as stated: with a transition row whose cumulative
total (4/5) falls short of the drawn uniform (9/10), the site loop of
simulateSeqsWithoutRH stores the sentinel -1 itself as the child state — the
caller does not treat the not-found sentinel as the last category, and the
stored value is outside [0, N). -/
theorem C4_counterexample :
    (simulateSeqsWithoutRHEdge c4BadCtm 2 1 1 [0] ⟨c4BadStream, 0⟩).1 = [-1] ∧
    ¬(0 ≤ (-1 : Int) ∧ (-1 : Int) < (2 : Int)) := by
  constructor
  · rw [simulateSeqsWithoutRHEdge_spec]
    norm_num [getRandomItemWithProbabilityMatrix, getRandomItemAux, c4BadCtm,
      c4BadStream]
  · norm_num

theorem writeASequenceToFile_eq (back : Int → String) :
    ∀ f : SimT, writeASequenceToFile back f = (leafRecords f).map
      (fun p => p.1 ++ " " ++ convertEncodedSequenceToReadableSequence back p.2) := by
  intro f
  induction f with
  | snil => rfl
  | snode nm seq cs sb ihcs ihsb =>
    cases cs with
    | snil =>
      by_cases h : nm = ROOT_NAME <;>
        simp [writeASequenceToFile, leafRecords, ihsb, h]
    | snode a b c d =>
      simp [writeASequenceToFile, leafRecords, ihcs, ihsb]

theorem leafRecords_length :
    ∀ f : SimT, noRootNamedLeaf f = true → (leafRecords f).length = leafCountF f := by
  intro f
  induction f with
  | snil => intro _; rfl
  | snode nm seq cs sb ihcs ihsb =>
    cases cs with
    | snil =>
      intro h
      simp only [noRootNamedLeaf, Bool.and_eq_true, decide_eq_true_eq] at h
      simp [leafRecords, leafCountF, h.1, ihsb h.2]
      omega
    | snode a b c d =>
      intro h
      simp only [noRootNamedLeaf, Bool.and_eq_true] at h
      simp [leafRecords, leafCountF, ihcs h.1, ihsb h.2]

/-- Claim C6 (amended).  The writer output is one header record carrying
tree->leafNum and the sequence length, followed by one line
name-whitespace-decoded-sequence for every visited node that passes the
leaf-and-name test — every leaf whose name differs from ROOT_NAME, the
traversal root included when it has at most one neighbor — in DFS
visitation order.  The header leaf count equals the number of sequence lines
exactly when no counted leaf is suppressed: when no forest leaf is named
ROOT_NAME and the root, if it counts as a leaf, is not named ROOT_NAME. -/
theorem C6_output_format (back : Int → String) (L : ℕ) (rn : String)
    (rs : List Int) (f : SimT) :
    (writeSequencesToFile back L rn rs f).1 = (leafNum f, L) ∧
    (writeSequencesToFile back L rn rs f).2 =
      (if topCount f ≤ 1 ∧ rn ≠ ROOT_NAME then
        [rn ++ " " ++ convertEncodedSequenceToReadableSequence back rs] else []) ++
      (leafRecords f).map
        (fun p => p.1 ++ " " ++ convertEncodedSequenceToReadableSequence back p.2) ∧
    (noRootNamedLeaf f = true → (topCount f ≤ 1 → rn ≠ ROOT_NAME) →
      (writeSequencesToFile back L rn rs f).2.length = leafNum f) := by
  refine ⟨rfl, ?_, ?_⟩
  · show (if topCount f ≤ 1 ∧ rn ≠ ROOT_NAME then _ else []) ++
      writeASequenceToFile back f = _
    rw [writeASequenceToFile_eq]
  · intro hnl hroot
    show ((if topCount f ≤ 1 ∧ rn ≠ ROOT_NAME then _ else []) ++
      writeASequenceToFile back f).length = leafNum f
    rw [List.length_append, writeASequenceToFile_eq, List.length_map,
      leafRecords_length f hnl]
    by_cases htop : topCount f ≤ 1
    · rw [if_pos ⟨htop, hroot htop⟩]
      simp [leafNum, htop]
    · rw [if_neg (fun hc => htop hc.1)]
      simp [leafNum, htop]

/-- Witness for C6 on a two-leaf star: a root named R with one leaf child A. -/
theorem C6_output_format_witness :
    (noRootNamedLeaf (SimT.snode "A" [0] .snil .snil) = true ∧
      (topCount (SimT.snode "A" [0] .snil .snil) ≤ 1 → "R" ≠ ROOT_NAME)) ∧
    (writeSequencesToFile dnaBack 1 "R" [1] (SimT.snode "A" [0] .snil .snil)).2.length =
      leafNum (SimT.snode "A" [0] .snil .snil) :=
  ⟨⟨by decide, fun _ => by decide⟩,
    (C6_output_format dnaBack 1 "R" [1] (SimT.snode "A" [0] .snil .snil)).2.2
      (by decide) (fun _ => by decide)⟩

/-- Counterexample to C6 as stated: a complete simulation run on a tree whose
traversal root is a degree-one node named ROOT_NAME.  tree->leafNum counts
that root (header says 3 leaves) but the writer suppresses it, emitting only
the 2 lines of the named leaves A and B, so the header leaf count does not
equal the number of per-leaf sequence lines; moreover the lines are emitted
for every leaf whose name differs from ROOT_NAME rather than for every
non-root leaf. -/
theorem C6_counterexample :
    ((generateSingleDatasetFromSingleTree false c3WitnessPm c8Ctm dnaBack 2 1 c6Tree
        ⟨c8Stream, 0⟩).1.1 = 3) ∧
    ((generateSingleDatasetFromSingleTree false c3WitnessPm c8Ctm dnaBack 2 1 c6Tree
        ⟨c8Stream, 0⟩).2.length = 2) ∧
    (3 : ℕ) ≠ 2 := by
  refine ⟨?_, ?_, by decide⟩ <;>
    (norm_num [generateSingleDatasetFromSingleTree, generateRandomSequence, drawMap,
      mapRange, mapRangeAux, RNG.next, simulateSeqsWithoutRH, simulateSeqsWithoutRHEdge,
      getRandomItemWithProbabilityMatrix, getRandomItemAux, writeSequencesToFile,
      writeASequenceToFile, leafNum, leafCountF, topCount,
      convertEncodedSequenceToReadableSequence, c3WitnessPm, c8Ctm, c8Stream,
      ROOT_NAME, c6Tree, dnaBack]) <;>
    decide

theorem startsWithChars_iff :
    ∀ (p l : List Char), startsWithChars p l = true ↔ ∃ b, l = p ++ b := by
  intro p
  induction p with
  | nil => intro l; simp [startsWithChars]
  | cons x ps ih =>
    intro l
    cases l with
    | nil => simp [startsWithChars]
    | cons c cs =>
      rw [startsWithChars, Bool.and_eq_true, decide_eq_true_eq, ih cs]
      constructor
      · rintro ⟨hx, b, hb⟩
        exact ⟨b, by simp [hx, hb]⟩
      · rintro ⟨b, hb⟩
        simp only [List.cons_append, List.cons.injEq] at hb
        exact ⟨hb.1.symm, b, hb.2⟩

theorem containsChars_iff :
    ∀ (p l : List Char), containsChars p l = true ↔ ∃ a b, l = a ++ p ++ b := by
  intro p l
  induction l with
  | nil =>
    rw [containsChars, startsWithChars_iff]
    constructor
    · rintro ⟨b, hb⟩
      exact ⟨[], b, by simpa using hb⟩
    · rintro ⟨a, b, hab⟩
      have h1 := List.append_eq_nil.mp hab.symm
      have h2 := List.append_eq_nil.mp h1.1
      exact ⟨b, by simp [h2.2, h1.2]⟩
  | cons c cs ih =>
    rw [containsChars, Bool.or_eq_true, startsWithChars_iff, ih]
    constructor
    · rintro (⟨b, hb⟩ | ⟨a, b, hab⟩)
      · exact ⟨[], b, by simpa using hb⟩
      · exact ⟨c :: a, b, by simp [hab]⟩
    · rintro ⟨a, b, hab⟩
      cases a with
      | nil => exact Or.inl ⟨b, by simpa using hab⟩
      | cons a0 arest =>
        simp only [List.cons_append, List.cons.injEq, List.append_assoc] at hab
        exact Or.inr ⟨arest, b, by simp [hab.2]⟩

/-- Claim C5 (amended).  A non-empty rate-heterogeneity name containing none
of the substrings +G, +R, +I makes simulateSeqsForTree fall through all of
its regime branches: the if / else-if chain selects no simulation branch,
calls no error routine, and the entry point completes without simulating any
sequences rather than failing with a fatal configuration error. -/
theorem C5_unsupported_regime_skips (rateName : List Char)
    (h0 : rateName ≠ [])
    (hG : ¬ ∃ a b, rateName = a ++ ['+', 'G'] ++ b)
    (hR : ¬ ∃ a b, rateName = a ++ ['+', 'R'] ++ b)
    (hI : ¬ ∃ a b, rateName = a ++ ['+', 'I'] ++ b) :
    simulateSeqsForTreeDispatch rateName = .skipAll := by
  have g : containsChars ['+', 'G'] rateName = false := by
    rw [← Bool.not_eq_true, containsChars_iff]
    exact hG
  have r : containsChars ['+', 'R'] rateName = false := by
    rw [← Bool.not_eq_true, containsChars_iff]
    exact hR
  have i : containsChars ['+', 'I'] rateName = false := by
    rw [← Bool.not_eq_true, containsChars_iff]
    exact hI
  simp [simulateSeqsForTreeDispatch, h0, g, r, i]

/-- Witness for C5 at the concrete unsupported rate name +X. -/
theorem C5_unsupported_regime_skips_witness :
    ((['+', 'X'] : List Char) ≠ [] ∧
      (¬ ∃ a b, (['+', 'X'] : List Char) = a ++ ['+', 'G'] ++ b) ∧
      (¬ ∃ a b, (['+', 'X'] : List Char) = a ++ ['+', 'R'] ++ b) ∧
      (¬ ∃ a b, (['+', 'X'] : List Char) = a ++ ['+', 'I'] ++ b)) ∧
    simulateSeqsForTreeDispatch ['+', 'X'] = .skipAll :=
  have hG : ¬ ∃ a b, (['+', 'X'] : List Char) = a ++ ['+', 'G'] ++ b := fun hx =>
    absurd ((containsChars_iff ['+', 'G'] ['+', 'X']).mpr hx) (by decide)
  have hR : ¬ ∃ a b, (['+', 'X'] : List Char) = a ++ ['+', 'R'] ++ b := fun hx =>
    absurd ((containsChars_iff ['+', 'R'] ['+', 'X']).mpr hx) (by decide)
  have hI : ¬ ∃ a b, (['+', 'X'] : List Char) = a ++ ['+', 'I'] ++ b := fun hx =>
    absurd ((containsChars_iff ['+', 'I'] ['+', 'X']).mpr hx) (by decide)
  ⟨⟨by decide, hG, hR, hI⟩,
    C5_unsupported_regime_skips ['+', 'X'] (by decide) hG hR hI⟩

/-- Counterexample to C5 as stated: on the concrete unsupported rate name +X
the dispatch of simulateSeqsForTree selects none of the three simulation
branches; the fall-through action skipAll is to return normally — no
sequence is simulated and no fatal configuration error is raised. -/
theorem C5_counterexample :
    simulateSeqsForTreeDispatch ['+', 'X'] = .skipAll ∧
    RegimeAction.skipAll ≠ .withoutRH ∧
    RegimeAction.skipAll ≠ .withRH ∧
    RegimeAction.skipAll ≠ .invarOnly := by
  refine ⟨?_, by decide, by decide, by decide⟩
  decide

theorem estimateStateWithRH_ix (ctm : ℚ → Int → ℚ) (numCats : ℕ)
    (catProbs catRate : Int → ℚ) (N : ℕ) (bl : ℚ) (d : Int) (r : RNG) :
    (estimateStateWithRH ctm numCats catProbs catRate N bl d r).2.1.ix = r.ix + 1 ∨
    (estimateStateWithRH ctm numCats catProbs catRate N bl d r).2.1.ix = r.ix + 2 := by
  by_cases h : getRandomItemWithProbabilityMatrix catProbs 0 numCats (r.stream r.ix) = -1
  · left; simp [estimateStateWithRH, RNG.next, h]
  · right; simp [estimateStateWithRH, RNG.next, h]

/-- Claim C2.  Per site the rate-heterogeneity regime samples a fresh
category from the category-weight vector; when the draw succeeds (index c),
the transition matrix is recomputed exactly once, for the edge length scaled
by that category's rate, and the child state is sampled from the row of the
parent's state; when the sampler returns the sentinel -1, the child state is
the parent's state verbatim and no transition matrix is computed.  The edge
loop invokes this once per site on the strictly advancing RNG, so every site
of every edge makes an independent fresh category draw. -/
theorem C2_rate_heterogeneity_semantics (ctm : ℚ → Int → ℚ) (numCats : ℕ)
    (catProbs catRate : Int → ℚ) (N L : ℕ) (bl : ℚ) (ps : List Int)
    (dadState : Int) (s : ℕ → ℚ) (ix : ℕ) :
    (getRandomItemWithProbabilityMatrix catProbs 0 numCats (s ix) = -1 →
      estimateStateWithRH ctm numCats catProbs catRate N bl dadState ⟨s, ix⟩ =
        (dadState, ⟨s, ix + 1⟩, [])) ∧
    (∀ c : Int,
      getRandomItemWithProbabilityMatrix catProbs 0 numCats (s ix) = c → c ≠ -1 →
      estimateStateWithRH ctm numCats catProbs catRate N bl dadState ⟨s, ix⟩ =
        (getRandomItemWithProbabilityMatrix (ctm (bl * catRate c))
          (dadState * (N : Int)) N (s (ix + 1)), ⟨s, ix + 2⟩, [bl * catRate c])) ∧
    (∀ i, i < L →
      (simulateSeqsWithRateHeterogeneityEdge ctm numCats catProbs catRate N L bl ps
        ⟨s, ix⟩).1.get? i =
      some ((estimateStateWithRH ctm numCats catProbs catRate N bl (ps.getD i 0)
        (mapSteps (simulateSeqsWithRHSite ctm numCats catProbs catRate N bl ps) 0
          ⟨s, ix⟩ i)).1)) ∧
    (∀ k : ℕ,
      (mapSteps (simulateSeqsWithRHSite ctm numCats catProbs catRate N bl ps) 0
        ⟨s, ix⟩ k).ix <
      (mapSteps (simulateSeqsWithRHSite ctm numCats catProbs catRate N bl ps) 0
        ⟨s, ix⟩ (k + 1)).ix) := by
  refine ⟨?_, ?_, ?_, ?_⟩
  · intro h
    simp [estimateStateWithRH, RNG.next, h]
  · intro c hc hne
    simp [estimateStateWithRH, RNG.next, hc, hne]
  · intro i hi
    exact mapRange_get _ L i ⟨s, ix⟩ hi
  · intro k
    have hstep : mapSteps (simulateSeqsWithRHSite ctm numCats catProbs catRate N bl ps)
        0 ⟨s, ix⟩ (k + 1) =
        (estimateStateWithRH ctm numCats catProbs catRate N bl (ps.getD (0 + k) 0)
          (mapSteps (simulateSeqsWithRHSite ctm numCats catProbs catRate N bl ps)
            0 ⟨s, ix⟩ k)).2.1 := rfl
    rw [hstep]
    rcases estimateStateWithRH_ix ctm numCats catProbs catRate N bl (ps.getD (0 + k) 0)
      (mapSteps (simulateSeqsWithRHSite ctm numCats catProbs catRate N bl ps)
        0 ⟨s, ix⟩ k) with h | h <;> omega

/-- Witness for C2: one concrete invocation through the sentinel branch
(deficient category distribution, draw 9/10) and one through the successful
branch (category 1 drawn at u = 1/2). -/
theorem C2_rate_heterogeneity_semantics_witness :
    (getRandomItemWithProbabilityMatrix c2CatProbs 0 2 (c4BadStream 0) = -1 ∧
      estimateStateWithRH c8Ctm 2 c2CatProbs c2Rate 2 1 5 ⟨c4BadStream, 0⟩ =
        (5, ⟨c4BadStream, 0 + 1⟩, [])) ∧
    (getRandomItemWithProbabilityMatrix c3WitnessPm 0 2 (c8Stream 0) = 1 ∧
      estimateStateWithRH c8Ctm 2 c3WitnessPm c2Rate 2 1 0 ⟨c8Stream, 0⟩ =
        (getRandomItemWithProbabilityMatrix (c8Ctm (1 * c2Rate 1))
          ((0 : Int) * ((2 : ℕ) : Int)) 2 (c8Stream (0 + 1)), ⟨c8Stream, 0 + 2⟩,
         [1 * c2Rate 1])) :=
  have hA : getRandomItemWithProbabilityMatrix c2CatProbs 0 2 (c4BadStream 0) = -1 := by
    norm_num [getRandomItemWithProbabilityMatrix, getRandomItemAux, c2CatProbs,
      c4BadStream]
  have hB : getRandomItemWithProbabilityMatrix c3WitnessPm 0 2 (c8Stream 0) = 1 := by
    norm_num [getRandomItemWithProbabilityMatrix, getRandomItemAux, c3WitnessPm,
      c8Stream]
  ⟨⟨hA, (C2_rate_heterogeneity_semantics c8Ctm 2 c2CatProbs c2Rate 2 0 1 [] 5
      c4BadStream 0).1 hA⟩,
   ⟨hB, (C2_rate_heterogeneity_semantics c8Ctm 2 c3WitnessPm c2Rate 2 0 1 [] 0
      c8Stream 0).2.1 1 hB (by decide)⟩⟩

theorem mapRange_getD {α : Type} [Inhabited α] (f : ℕ → RNG → α × RNG) (n i : ℕ)
    (r : RNG) (d : α) (hi : i < n) :
    (mapRange f n r).1.getD i d = (f i (mapSteps f 0 r i)).1 := by
  rw [List.getD_eq_get?, mapRange_get f n i r hi]
  rfl

theorem seqAgrees_iff (L : ℕ) (rates : List ℚ) (a b : List Int) :
    seqAgrees L rates a b = true ↔
      ∀ i < L, rates.getD i 1 = 0 → a.getD i 0 = b.getD i 0 := by
  rw [seqAgrees, List.all_eq_true]
  constructor
  · intro h i hi hr
    have h2 := h i (List.mem_range.mpr hi)
    rw [if_pos hr] at h2
    simpa using h2
  · intro h i hmem
    by_cases hr : rates.getD i 1 = 0
    · rw [if_pos hr]
      simpa using h i (List.mem_range.mp hmem) hr
    · rw [if_neg hr]

theorem AliSimulatorInvar.simulateASequence_preserves
    (vd : ℚ → Int → RNG → Int × RNG) (pr : ℚ) (L : ℕ) (rates : List ℚ) (bl : ℚ)
    (ps : List Int) (r : RNG) (rootSeq : List Int)
    (hps : ∀ i < L, rates.getD i 1 = 0 → ps.getD i 0 = rootSeq.getD i 0) :
    ∀ i < L, rates.getD i 1 = 0 →
      (AliSimulatorInvar.simulateASequenceFromBranchAfterInitVariables
        vd pr L rates bl ps r).1.getD i 0 = rootSeq.getD i 0 := by
  intro i hi hr
  rw [AliSimulatorInvar.simulateASequenceFromBranchAfterInitVariables,
    mapRange_getD _ L i r 0 hi]
  simp only [if_pos hr]
  exact hps i hi hr

theorem AliSimulatorInvar.simulateSeqs_preserves (vd : ℚ → Int → RNG → Int × RNG)
    (bse : ℚ → String → List Int → RNG → List Int × RNG)
    (pf : List Int → List Int) (pr : ℚ) (L : ℕ) (rates : List ℚ)
    (rootSeq : List Int) :
    ∀ (t : NTree) (ps : List Int) (r : RNG),
      attrsEmpty t = true →
      (∀ i < L, rates.getD i 1 = 0 → ps.getD i 0 = rootSeq.getD i 0) →
      preservedAll L rates rootSeq
        (AliSimulatorInvar.simulateSeqs vd bse false pf pr L rates ps t r).1 = true := by
  intro t
  induction t with
  | nil => intro ps r _ _; rfl
  | node nm bl attr cs sb ihcs ihsb =>
    intro ps r hattr hps
    simp only [attrsEmpty, Bool.and_eq_true, decide_eq_true_eq] at hattr
    obtain ⟨⟨ha, hcs⟩, hsb⟩ := hattr
    simp only [AliSimulatorInvar.simulateSeqs, ha, Bool.false_and, if_false,
      Bool.false_eq_true]
    have hlen : ¬ (String.length "" > 0) := by decide
    rw [if_neg hlen]
    have hedge := AliSimulatorInvar.simulateASequence_preserves vd pr L rates bl ps r
      rootSeq hps
    simp only [preservedAll, Bool.and_eq_true]
    refine ⟨⟨?_, ?_⟩, ?_⟩
    · exact (seqAgrees_iff L rates _ rootSeq).mpr hedge
    · exact ihcs _ _ hcs hedge
    · exact ihsb _ _ hsb hps

/-- Claim C1 (amended; the AliSimulatorInvar implementation).  In the
class-based only-invariant-sites regime the per-site invariance flags are
drawn exactly once for the whole run, before the traversal, by
initVariables — site i is flagged invariant (rate 0) precisely when its one
pre-drawn uniform is at most the invariant proportion — and for every site
flagged invariant every node's state equals its parent's state at that site,
transitively up to the root, on every edge without a branch-specific model
and with FunDi disabled.  (The standalone simulateSeqsWithOnlyInvariantSites
of src/main/alisim.cpp instead re-draws the decision per edge; see the
counterexample.) -/
theorem C1_invariant_sites_pre_drawn (vd : ℚ → Int → RNG → Int × RNG)
    (bse : ℚ → String → List Int → RNG → List Int × RNG)
    (pf : List Int → List Int) (pr invarProp : ℚ) (L : ℕ)
    (rootSeq : List Int) (t : NTree) (s : ℕ → ℚ) (ix : ℕ)
    (hattr : attrsEmpty t = true) :
    (AliSimulatorInvar.simulateSeqsForTree vd bse false pf pr invarProp L rootSeq t
        ⟨s, ix⟩).1 =
      (List.range L).map (fun i => if s (ix + i) ≤ invarProp then (0 : ℚ) else 1) ∧
    preservedAll L
      (AliSimulatorInvar.simulateSeqsForTree vd bse false pf pr invarProp L rootSeq t
        ⟨s, ix⟩).1
      rootSeq
      (AliSimulatorInvar.simulateSeqsForTree vd bse false pf pr invarProp L rootSeq t
        ⟨s, ix⟩).2 = true := by
  have hiv : AliSimulatorInvar.initVariables invarProp L ⟨s, ix⟩ =
      ((List.range L).map (fun i => if s (ix + i) ≤ invarProp then (0 : ℚ) else 1),
       ⟨s, ix + L⟩) := drawMap_spec _ L s ix
  cases t with
  | nil =>
    constructor
    · show (AliSimulatorInvar.initVariables invarProp L ⟨s, ix⟩).1 = _
      rw [hiv]
    · rfl
  | node nm bl attr cs sb =>
    simp only [attrsEmpty, Bool.and_eq_true, decide_eq_true_eq] at hattr
    obtain ⟨⟨_, hcs⟩, _⟩ := hattr
    constructor
    · show (AliSimulatorInvar.initVariables invarProp L ⟨s, ix⟩).1 = _
      rw [hiv]
    · show preservedAll L (AliSimulatorInvar.initVariables invarProp L ⟨s, ix⟩).1 rootSeq
        (AliSimulatorInvar.simulateSeqs vd bse false pf pr L
          (AliSimulatorInvar.initVariables invarProp L ⟨s, ix⟩).1 rootSeq cs
          (AliSimulatorInvar.initVariables invarProp L ⟨s, ix⟩).2).1 = true
      exact AliSimulatorInvar.simulateSeqs_preserves vd bse pf pr L _ rootSeq cs rootSeq
        _ hcs (fun i _ _ => rfl)

/-- Witness for C1 on a concrete one-edge tree with no branch-specific
attributes. -/
theorem C1_invariant_sites_pre_drawn_witness :
    attrsEmpty c8Tree = true ∧
    (AliSimulatorInvar.simulateSeqsForTree (fun _ _ r => (0, r)) (fun _ _ ps r => (ps, r))
        false id 1 (1/2) 1 [0] c8Tree ⟨c8Stream, 0⟩).1 =
      (List.range 1).map (fun i => if c8Stream (0 + i) ≤ 1/2 then (0 : ℚ) else 1) ∧
    preservedAll 1
      (AliSimulatorInvar.simulateSeqsForTree (fun _ _ r => (0, r)) (fun _ _ ps r => (ps, r))
        false id 1 (1/2) 1 [0] c8Tree ⟨c8Stream, 0⟩).1
      [0]
      (AliSimulatorInvar.simulateSeqsForTree (fun _ _ r => (0, r)) (fun _ _ ps r => (ps, r))
        false id 1 (1/2) 1 [0] c8Tree ⟨c8Stream, 0⟩).2 = true :=
  ⟨by decide,
   (C1_invariant_sites_pre_drawn (fun _ _ r => (0, r)) (fun _ _ ps r => (ps, r)) id 1
     (1/2) 1 [0] c8Tree c8Stream 0 (by decide)).1,
   (C1_invariant_sites_pre_drawn (fun _ _ r => (0, r)) (fun _ _ ps r => (ps, r)) id 1
     (1/2) 1 [0] c8Tree c8Stream 0 (by decide)).2⟩

/-- Counterexample to C1 as stated, on the only-invariant-sites regime of
src/main/alisim.cpp (simulateSeqsWithOnlyInvariantSites).  On the path
root - A - B with one site, root state 0 and invariant proportion 1/2, the
first edge's invariance draw (3/10 <= 1/2) flags the site invariant and
copies the parent state (A gets 0), but the decision is drawn AGAIN during
traversal at the deeper edge (draw 9/10 > 1/2) and the site mutates
(B gets 1 ≠ 0): the invariance flag is re-drawn per edge per site during
traversal, not exactly once before it, and parent-state preservation does
not extend transitively to the root. -/
theorem C1_counterexample :
    (simulateSeqsWithOnlyInvariantSites c1Ctm 2 1 (1/2) [0]
        (.node "A" 1 "" (.node "B" 1 "" .nil .nil) .nil) ⟨c1Stream, 0⟩).1 =
      .snode "A" [0] (.snode "B" [1] .snil .snil) .snil ∧
    ([0] : List Int).getD 0 0 ≠ ([1] : List Int).getD 0 0 := by
  constructor
  · norm_num [simulateSeqsWithOnlyInvariantSites, simulateSeqsWithOnlyInvariantSitesEdge,
      mapRange, mapRangeAux, RNG.next, getRandomItemWithProbabilityMatrix,
      getRandomItemAux, c1Ctm, c1Stream]
  · decide

theorem checkedSiteLoop_isSome (tm : Int → ℚ) (N : ℕ) (ps : List Int) (s : ℕ → ℚ) :
    ∀ (rem i ix : ℕ),
      (checkedSiteLoop tm N ps s i ix rem).isSome = true ↔
        ∀ k < rem, i + k < ps.length := by
  intro rem
  induction rem with
  | zero => intro i ix; simp [checkedSiteLoop]
  | succ m ih =>
    intro i ix
    rw [checkedSiteLoop]
    rcases hg : ps.get? i with - | st
    · have hlen : ps.length ≤ i := List.get?_eq_none.mp hg
      simp only [Option.isSome_none, Bool.false_eq_true, false_iff]
      intro hall
      have := hall 0 (Nat.succ_pos m)
      omega
    · have hlen : i < ps.length := by
        have := List.get?_eq_some.mp hg
        exact this.choose
      rcases hrec : checkedSiteLoop tm N ps s (i + 1) (ix + 1) m with - | rest
      · simp only [Option.isSome_none, Bool.false_eq_true, false_iff]
        intro hall
        have hrec2 := (ih (i + 1) (ix + 1)).mpr (fun k hk => by
          have := hall (k + 1) (Nat.succ_lt_succ hk)
          omega)
        rw [hrec] at hrec2
        exact absurd hrec2 (by simp)
      · simp only [Option.isSome_some, eq_self_iff_true, true_iff]
        intro k hk
        cases k with
        | zero => omega
        | succ j =>
          have hrec2 : (checkedSiteLoop tm N ps s (i + 1) (ix + 1) m).isSome = true := by
            rw [hrec]; rfl
          have := (ih (i + 1) (ix + 1)).mp hrec2 j (Nat.lt_of_succ_lt_succ hk)
          omega

/-- Claim C10.  With an ancestral-sequence position specified, the root
sequence is the fixed 100-state conversion of the hard-coded string,
independent of the requested length; the first edge's site loop reads the
parent (root) sequence at every index below the requested length, so it is
in-bounds exactly when the requested length is at most 100, and for every
requested length greater than 100 the loop performs an out-of-bounds read of
the root's sequence. -/
theorem C10_ancestral_length_bounds (convertState : Char → Int) (tm : Int → ℚ)
    (N : ℕ) (s : ℕ → ℚ) (ix L : ℕ) :
    (retrieveAncestralSequenceFromInputFile convertState).length = 100 ∧
    (L ≤ 100 →
      (checkedSiteLoop tm N (retrieveAncestralSequenceFromInputFile convertState)
        s 0 ix L).isSome = true) ∧
    (100 < L →
      checkedSiteLoop tm N (retrieveAncestralSequenceFromInputFile convertState)
        s 0 ix L = none) := by
  have hlen : (retrieveAncestralSequenceFromInputFile convertState).length = 100 := by
    rw [retrieveAncestralSequenceFromInputFile, List.length_map]
    rfl
  refine ⟨hlen, ?_, ?_⟩
  · intro hL
    rw [checkedSiteLoop_isSome]
    intro k hk
    rw [hlen]
    omega
  · intro hL
    have : ¬ (checkedSiteLoop tm N (retrieveAncestralSequenceFromInputFile convertState)
        s 0 ix L).isSome = true := by
      rw [checkedSiteLoop_isSome]
      intro hall
      have := hall 100 hL
      rw [hlen] at this
      omega
    rcases hres : checkedSiteLoop tm N (retrieveAncestralSequenceFromInputFile convertState)
        s 0 ix L with - | v
    · rfl
    · rw [hres] at this
      exact absurd rfl this

/-- Witness for C10 at the requested lengths 100 (in bounds) and 101 (the
first out-of-bounds length). -/
theorem C10_ancestral_length_bounds_witness :
    (100 < 101 ∧
      checkedSiteLoop c3WitnessPm 4 (retrieveAncestralSequenceFromInputFile dnaConvert)
        c8Stream 0 0 101 = none) ∧
    ((100 ≤ 100) ∧
      (checkedSiteLoop c3WitnessPm 4 (retrieveAncestralSequenceFromInputFile dnaConvert)
        c8Stream 0 0 100).isSome = true) :=
  ⟨⟨by decide,
    (C10_ancestral_length_bounds dnaConvert c3WitnessPm 4 c8Stream 0 101).2.2
      (by decide)⟩,
   ⟨by decide,
    (C10_ancestral_length_bounds dnaConvert c3WitnessPm 4 c8Stream 0 100).2.1
      (by decide)⟩⟩

theorem removeConstantSites_zero : ∀ cols : List (List Int),
    removeConstantSites 0 cols = cols
  | [] => rfl
  | _ :: _ => rfl

theorem removeConstantSites_cons (k : ℕ) (c : List Int) (cs : List (List Int)) :
    removeConstantSites (k + 1) (c :: cs) =
      if isConstantCol c then removeConstantSites k cs
      else c :: removeConstantSites (k + 1) cs := rfl

theorem removeConstantSites_spec :
    ∀ (cols : List (List Int)) (k : ℕ),
      k ≤ cols.countP (fun c => isConstantCol c) →
      (removeConstantSites k cols).length = cols.length - k ∧
      List.Sublist (removeConstantSites k cols) cols ∧
      (removeConstantSites k cols).countP (fun c => isConstantCol c) =
        cols.countP (fun c => isConstantCol c) - k := by
  intro cols
  induction cols with
  | nil =>
    intro k hk
    simp only [List.countP_nil, Nat.le_zero] at hk
    subst hk
    exact ⟨rfl, List.Sublist.refl _, rfl⟩
  | cons c cs ih =>
    intro k hk
    cases k with
    | zero =>
      rw [removeConstantSites_zero]
      exact ⟨by omega, List.Sublist.refl _, by omega⟩
    | succ m =>
      rw [removeConstantSites_cons]
      by_cases hc : isConstantCol c = true
      · have hcount : (c :: cs).countP (fun c => isConstantCol c) =
            cs.countP (fun c => isConstantCol c) + 1 := by
          rw [List.countP_cons, if_pos hc]
        have hm : m ≤ cs.countP (fun c => isConstantCol c) := by omega
        obtain ⟨h1, h2, h3⟩ := ih m hm
        rw [if_pos hc]
        refine ⟨?_, h2.cons c, ?_⟩
        · rw [h1]
          simp only [List.length_cons]
          omega
        · rw [h3, hcount]
          omega
      · have hcount : (c :: cs).countP (fun c => isConstantCol c) =
            cs.countP (fun c => isConstantCol c) := by
          rw [List.countP_cons, if_neg hc]
          omega
        have hm : m + 1 ≤ cs.countP (fun c => isConstantCol c) := by omega
        have hlen : m + 1 ≤ cs.length :=
          le_trans hm (List.countP_le_length _)
        obtain ⟨h1, h2, h3⟩ := ih (m + 1) hm
        rw [if_neg hc]
        refine ⟨?_, h2.cons₂ c, ?_⟩
        · simp only [List.length_cons, h1]
          omega
        · rw [List.countP_cons, if_neg hc, h3, hcount]
          omega

/-- Claim C9.  When length_ratio is not greater than 1 the post-processing
performs no trimming; when the inflation heuristic was used (length_ratio
strictly greater than 1) and the inflated alignment holds at least
inflated − requested constant columns, the trim removes exactly
inflated − requested columns, all of them constant, leaving an alignment of
exactly the requested length (a sublist of the original columns). -/
theorem C9_post_trim_exact (lengthInflation : ℚ) (requested : ℕ)
    (cols : List (List Int)) :
    (¬ 1 < lengthInflation →
      postTrimConstantSites lengthInflation requested cols = cols) ∧
    (1 < lengthInflation → requested ≤ cols.length →
      cols.length - requested ≤ cols.countP (fun c => isConstantCol c) →
      (postTrimConstantSites lengthInflation requested cols).length = requested ∧
      cols.length - (postTrimConstantSites lengthInflation requested cols).length =
        cols.length - requested ∧
      List.Sublist (postTrimConstantSites lengthInflation requested cols) cols ∧
      cols.countP (fun c => isConstantCol c) -
        (postTrimConstantSites lengthInflation requested cols).countP
          (fun c => isConstantCol c) = cols.length - requested) := by
  constructor
  · intro h
    rw [postTrimConstantSites, if_neg h]
  · intro h hreq hconst
    obtain ⟨h1, h2, h3⟩ := removeConstantSites_spec cols (cols.length - requested) hconst
    rw [postTrimConstantSites, if_pos h]
    refine ⟨by omega, by omega, h2, by omega⟩

/-- Witness for C9: inflation 2, requested length 2, three columns of which
the first and third are constant; and the no-trim branch at inflation 1. -/
theorem C9_post_trim_exact_witness :
    ((¬ (1 : ℚ) < 1) ∧ postTrimConstantSites 1 2 [[0, 0], [0, 1], [1, 1]] =
      [[0, 0], [0, 1], [1, 1]]) ∧
    ((1 : ℚ) < 2 ∧ 2 ≤ ([[0, 0], [0, 1], [1, 1]] : List (List Int)).length ∧
      ([[0, 0], [0, 1], [1, 1]] : List (List Int)).length - 2 ≤
        ([[0, 0], [0, 1], [1, 1]] : List (List Int)).countP (fun c => isConstantCol c) ∧
      (postTrimConstantSites 2 2 [[0, 0], [0, 1], [1, 1]]).length = 2) :=
  ⟨⟨by norm_num, (C9_post_trim_exact 1 2 [[0, 0], [0, 1], [1, 1]]).1 (by norm_num)⟩,
   ⟨by norm_num, by decide, by decide,
    ((C9_post_trim_exact 2 2 [[0, 0], [0, 1], [1, 1]]).2 (by norm_num) (by decide)
      (by decide)).1⟩⟩

theorem memStr_iff (x : String) : ∀ l : List String, memStr x l = true ↔ x ∈ l := by
  intro l
  induction l with
  | nil => simp [memStr]
  | cons y ys ih =>
    rw [memStr, Bool.or_eq_true, decide_eq_true_eq, ih]
    constructor
    · rintro (h | h)
      · exact List.mem_cons.mpr (Or.inl h.symm)
      · exact List.mem_cons.mpr (Or.inr h)
    · intro h
      rcases List.mem_cons.mp h with h | h
      · exact Or.inl h.symm
      · exact Or.inr h

theorem memStr_eq_false {x : String} {l : List String} (h : x ∉ l) :
    memStr x l = false := by
  cases hm : memStr x l
  · rfl
  · exact absurd ((memStr_iff x l).mp hm) h

theorem checker_consume (rel : List String) (p c : String) (es : List SimEvent) :
    consumeAfterReleaseFree rel (.consume p c :: es) =
      ((!(memStr p rel)) && consumeAfterReleaseFree rel es) := rfl

theorem checker_write (rel : List String) (nm : String) (es : List SimEvent) :
    consumeAfterReleaseFree rel (.writeLeaf nm :: es) =
      consumeAfterReleaseFree rel es := rfl

theorem checker_release (rel : List String) (nm : String) (es : List SimEvent) :
    consumeAfterReleaseFree rel (.release nm :: es) =
      consumeAfterReleaseFree (nm :: rel) es := rfl

theorem eventsF_count_writeLeaf (x : String) :
    ∀ (t : NTree) (p : String),
      (eventsF p t).count (SimEvent.writeLeaf x) = leafNamedCountF x t := by
  intro t
  induction t with
  | nil => intro p; rfl
  | node nm bl attr cs sb ihcs ihsb =>
    intro p
    cases cs with
    | nil =>
      by_cases hx : nm = x
      · subst hx
        simp [eventsF, leafNamedCountF, List.count_cons, ihsb p]
        omega
      · simp [eventsF, leafNamedCountF, List.count_cons, ihsb p, hx, Ne.symm hx]
    | node a b c d e =>
      simp [eventsF, leafNamedCountF, List.count_cons, List.count_append,
        ihcs nm, ihsb p]

theorem runEvents_count_writeLeaf (x : String) (t : NTree) :
    (runEvents t).count (SimEvent.writeLeaf x) = rootLeafNamedCount x t := by
  cases t with
  | nil => rfl
  | node nm bl attr cs sb =>
    simp [runEvents, rootLeafNamedCount, List.count_append, List.count_cons,
      eventsF_count_writeLeaf x cs nm]

theorem eventsF_checker :
    ∀ (t : NTree) (p : String) (rel : List String) (tail : List SimEvent),
      (namesF t).Nodup → p ∉ namesF t →
      (∀ x ∈ rel, x ≠ p ∧ x ∉ namesF t) →
      ∃ rel2 : List String,
        (∀ x, x ∈ rel2 ↔ x ∈ namesF t ∨ x ∈ rel) ∧
        consumeAfterReleaseFree rel (eventsF p t ++ tail) =
          consumeAfterReleaseFree rel2 tail := by
  intro t
  induction t with
  | nil =>
    intro p rel tail _ _ _
    exact ⟨rel, fun x => by simp [namesF], rfl⟩
  | node nm bl attr cs sb ihcs ihsb =>
    intro p rel tail hnd hp hrel
    have hnames : namesF (NTree.node nm bl attr cs sb) =
        nm :: (namesF cs ++ namesF sb) := rfl
    rw [hnames] at hnd hp
    rw [List.nodup_cons] at hnd
    obtain ⟨hnm, hnd2⟩ := hnd
    rw [List.nodup_append] at hnd2
    obtain ⟨hndcs, hndsb, hdisj⟩ := hnd2
    have hpnm : p ≠ nm := fun h => hp (h ▸ List.mem_cons_self _ _)
    have hpcs : p ∉ namesF cs :=
      fun h => hp (List.mem_cons_of_mem _ (List.mem_append_left _ h))
    have hpsb : p ∉ namesF sb :=
      fun h => hp (List.mem_cons_of_mem _ (List.mem_append_right _ h))
    have hprel : p ∉ rel := fun h => (hrel p h).1 rfl
    have hmem : memStr p rel = false := memStr_eq_false hprel
    have hnmsb : nm ∉ namesF sb :=
      fun h => hnm (List.mem_append_right _ h)
    have hnmcs : nm ∉ namesF cs :=
      fun h => hnm (List.mem_append_left _ h)
    cases cs with
    | nil =>
      obtain ⟨rel2, hrel2, hch⟩ := ihsb p (nm :: rel) tail hndsb hpsb (by
        intro x hx
        rcases List.mem_cons.mp hx with hxeq | hxrel
        · subst hxeq
          exact ⟨Ne.symm hpnm, hnmsb⟩
        · obtain ⟨h1, h2⟩ := hrel x hxrel
          exact ⟨h1, fun hc => h2 (by
            rw [hnames]
            exact List.mem_cons_of_mem _ (List.mem_append_right _ hc))⟩)
      refine ⟨rel2, ?_, ?_⟩
      · intro x
        rw [hrel2 x, hnames]
        simp [namesF, List.mem_cons, or_assoc, or_comm, or_left_comm]
      · show consumeAfterReleaseFree rel
          ((SimEvent.consume p nm :: SimEvent.writeLeaf nm :: SimEvent.release nm ::
            eventsF p sb) ++ tail) = _
        rw [List.cons_append, checker_consume, hmem, List.cons_append, checker_write,
          List.cons_append, checker_release]
        simpa using hch
    | node a b c d e =>
      obtain ⟨rel2, hrel2, hch1⟩ := ihcs nm rel
        (SimEvent.release nm :: (eventsF p sb ++ tail)) hndcs hnmcs (by
          intro x hx
          obtain ⟨h1, h2⟩ := hrel x hx
          refine ⟨?_, ?_⟩
          · intro hc
            exact h2 (by rw [hnames, hc]; exact List.mem_cons_self _ _)
          · intro hc
            exact h2 (by
              rw [hnames]
              exact List.mem_cons_of_mem _ (List.mem_append_left _ hc)))
      obtain ⟨rel3, hrel3, hch2⟩ := ihsb p (nm :: rel2) tail hndsb hpsb (by
        intro x hx
        rcases List.mem_cons.mp hx with hxeq | hxrel2
        · subst hxeq
          exact ⟨Ne.symm hpnm, hnmsb⟩
        · rcases (hrel2 x).mp hxrel2 with hxcs | hxrel
          · refine ⟨fun hc => hpcs (hc ▸ hxcs), fun hc => ?_⟩
            exact (List.disjoint_left.mp hdisj) hxcs hc
          · obtain ⟨h1, h2⟩ := hrel x hxrel
            exact ⟨h1, fun hc => h2 (by
              rw [hnames]
              exact List.mem_cons_of_mem _ (List.mem_append_right _ hc))⟩)
      refine ⟨rel3, ?_, ?_⟩
      · intro x
        rw [hrel3 x, List.mem_cons, hrel2 x, hnames]
        simp [List.mem_cons, List.mem_append, or_assoc, or_comm, or_left_comm]
      · show consumeAfterReleaseFree rel
          ((SimEvent.consume p nm ::
            (eventsF nm (NTree.node a b c d e) ++
              (SimEvent.release nm :: eventsF p sb))) ++ tail) = _
        rw [List.cons_append, checker_consume, hmem, List.append_assoc,
          List.cons_append]
        have hstep : consumeAfterReleaseFree rel
            (eventsF nm (NTree.node a b c d e) ++
              (SimEvent.release nm :: (eventsF p sb ++ tail))) =
            consumeAfterReleaseFree rel2
              (SimEvent.release nm :: (eventsF p sb ++ tail)) := hch1
        rw [Bool.not_false, Bool.true_and, hstep, checker_release, hch2]

/-- Claim C7 (spec-modelled: the write-and-release bookkeeping of
writeAndDeleteSequenceImmediatelyIfPossible lives outside src/ and is
modelled from spec §4.3/§4.5).  During one full DFS with streaming output,
the number of writeLeaf events for a name equals the number of leaves of the
root's forest carrying that name — so with distinct names every leaf is
serialized exactly once — and, for distinct node names, no consume event
ever reads a parent sequence after that parent's release event: a node
becomes eligible for release only once every outgoing edge except the
arrival edge (all of them, at the root) has been processed. -/
theorem C7_streaming_writer (t : NTree) :
    (∀ x : String,
      (runEvents t).count (SimEvent.writeLeaf x) = rootLeafNamedCount x t) ∧
    ((rootNames t).Nodup → consumeAfterReleaseFree [] (runEvents t) = true) := by
  constructor
  · exact fun x => runEvents_count_writeLeaf x t
  · intro hnd
    cases t with
    | nil => rfl
    | node nm bl attr cs sb =>
      have hnd2 : (nm :: namesF cs).Nodup := hnd
      rw [List.nodup_cons] at hnd2
      obtain ⟨rel2, _, hch⟩ := eventsF_checker cs nm []
        [SimEvent.release nm] hnd2.2 hnd2.1 (by simp)
      show consumeAfterReleaseFree [] (eventsF nm cs ++ [SimEvent.release nm]) = true
      rw [hch, checker_release]
      rfl

/-- Witness for C7 on the concrete tree with distinct names used above. -/
theorem C7_streaming_writer_witness :
    (rootNames c6Tree).Nodup ∧
    consumeAfterReleaseFree [] (runEvents c6Tree) = true :=
  ⟨by decide, (C7_streaming_writer c6Tree).2 (by decide)⟩

theorem rngEta (r : RNG) (s : ℕ → ℚ) (h : r.stream = s) : r = ⟨s, r.ix⟩ := by
  cases r with
  | mk st j =>
    cases h
    rfl

theorem mapRangeWindowed_bound {α : Type} (f : ℕ → RNG → α × RNG) (W : ℕ)
    (hfs : ∀ (i : ℕ) (s : ℕ → ℚ) (ix : ℕ), (f i ⟨s, ix⟩).2.stream = s)
    (hfb : ∀ (i : ℕ) (s : ℕ → ℚ) (ix : ℕ),
      ix ≤ (f i ⟨s, ix⟩).2.ix ∧ (f i ⟨s, ix⟩).2.ix ≤ ix + W) :
    ∀ (n i : ℕ) (s : ℕ → ℚ) (ix : ℕ),
      (mapRangeAux f i n ⟨s, ix⟩).2.stream = s ∧
      ix ≤ (mapRangeAux f i n ⟨s, ix⟩).2.ix ∧
      (mapRangeAux f i n ⟨s, ix⟩).2.ix ≤ ix + n * W := by
  intro n
  induction n with
  | zero =>
    intro i s ix
    refine ⟨rfl, le_refl _, ?_⟩
    show ix ≤ ix + 0 * W
    omega
  | succ m ih =>
    intro i s ix
    have heta : (f i ⟨s, ix⟩).2 = ⟨s, (f i ⟨s, ix⟩).2.ix⟩ :=
      rngEta _ s (hfs i s ix)
    have hun : (mapRangeAux f i (m + 1) ⟨s, ix⟩).2 =
        (mapRangeAux f (i + 1) m ((f i ⟨s, ix⟩).2)).2 := rfl
    rw [hun, heta]
    obtain ⟨h1, h2, h3⟩ := ih (i + 1) s ((f i ⟨s, ix⟩).2.ix)
    obtain ⟨hb1, hb2⟩ := hfb i s ix
    refine ⟨h1, by omega, ?_⟩
    have hmw : (m + 1) * W = W + m * W := by ring
    omega

theorem mapRangeWindowed_agree {α : Type} (f : ℕ → RNG → α × RNG) (W : ℕ)
    (hfs : ∀ (i : ℕ) (s : ℕ → ℚ) (ix : ℕ), (f i ⟨s, ix⟩).2.stream = s)
    (hfb : ∀ (i : ℕ) (s : ℕ → ℚ) (ix : ℕ),
      ix ≤ (f i ⟨s, ix⟩).2.ix ∧ (f i ⟨s, ix⟩).2.ix ≤ ix + W)
    (hfa : ∀ (i : ℕ) (s s2 : ℕ → ℚ) (ix : ℕ),
      (∀ n < W, s (ix + n) = s2 (ix + n)) →
      (f i ⟨s, ix⟩).1 = (f i ⟨s2, ix⟩).1 ∧
      (f i ⟨s, ix⟩).2.ix = (f i ⟨s2, ix⟩).2.ix) :
    ∀ (n i : ℕ) (s s2 : ℕ → ℚ) (ix : ℕ),
      (∀ k < n * W, s (ix + k) = s2 (ix + k)) →
      (mapRangeAux f i n ⟨s, ix⟩).1 = (mapRangeAux f i n ⟨s2, ix⟩).1 ∧
      (mapRangeAux f i n ⟨s, ix⟩).2.ix = (mapRangeAux f i n ⟨s2, ix⟩).2.ix := by
  intro n
  induction n with
  | zero => intro i s s2 ix _; exact ⟨rfl, rfl⟩
  | succ m ih =>
    intro i s s2 ix h
    have hWle : W ≤ (m + 1) * W := by
      have : (m + 1) * W = W + m * W := by ring
      omega
    obtain ⟨hv, hix⟩ := hfa i s s2 ix (fun k hk => h k (by omega))
    have heta1 : (f i ⟨s, ix⟩).2 = ⟨s, (f i ⟨s, ix⟩).2.ix⟩ :=
      rngEta _ s (hfs i s ix)
    have heta2 : (f i ⟨s2, ix⟩).2 = ⟨s2, (f i ⟨s, ix⟩).2.ix⟩ := by
      rw [rngEta _ s2 (hfs i s2 ix), hix]
    obtain ⟨hb1, hb2⟩ := hfb i s ix
    have hrest : ∀ k < m * W,
        s ((f i ⟨s, ix⟩).2.ix + k) = s2 ((f i ⟨s, ix⟩).2.ix + k) := by
      intro k hk
      have hx : (f i ⟨s, ix⟩).2.ix + k = ix + ((f i ⟨s, ix⟩).2.ix - ix + k) := by
        omega
      rw [hx]
      apply h
      have : (m + 1) * W = W + m * W := by ring
      omega
    obtain ⟨hv2, hix2⟩ := ih (i + 1) s s2 ((f i ⟨s, ix⟩).2.ix) hrest
    constructor
    · show (f i ⟨s, ix⟩).1 :: (mapRangeAux f (i + 1) m ((f i ⟨s, ix⟩).2)).1 =
        (f i ⟨s2, ix⟩).1 :: (mapRangeAux f (i + 1) m ((f i ⟨s2, ix⟩).2)).1
      rw [heta1, heta2, hv, hv2]
    · show (mapRangeAux f (i + 1) m ((f i ⟨s, ix⟩).2)).2.ix =
        (mapRangeAux f (i + 1) m ((f i ⟨s2, ix⟩).2)).2.ix
      rw [heta1, heta2]
      exact hix2

theorem traverseEdges_bound (edge : List Int → ℚ → RNG → List Int × RNG) (B : ℕ)
    (hes : ∀ (ps : List Int) (bl : ℚ) (s : ℕ → ℚ) (ix : ℕ),
      (edge ps bl ⟨s, ix⟩).2.stream = s)
    (heb : ∀ (ps : List Int) (bl : ℚ) (s : ℕ → ℚ) (ix : ℕ),
      ix ≤ (edge ps bl ⟨s, ix⟩).2.ix ∧ (edge ps bl ⟨s, ix⟩).2.ix ≤ ix + B) :
    ∀ (t : NTree) (ps : List Int) (s : ℕ → ℚ) (ix : ℕ),
      (traverseEdges edge ps t ⟨s, ix⟩).2.stream = s ∧
      ix ≤ (traverseEdges edge ps t ⟨s, ix⟩).2.ix ∧
      (traverseEdges edge ps t ⟨s, ix⟩).2.ix ≤ ix + edgeCount t * B := by
  intro t
  induction t with
  | nil =>
    intro ps s ix
    refine ⟨rfl, le_refl _, ?_⟩
    show ix ≤ ix + edgeCount NTree.nil * B
    simp [edgeCount]
  | node nm bl attr cs sb ihcs ihsb =>
    intro ps s ix
    have heta1 : (edge ps bl ⟨s, ix⟩).2 = ⟨s, (edge ps bl ⟨s, ix⟩).2.ix⟩ :=
      rngEta _ s (hes ps bl s ix)
    obtain ⟨he1, he2⟩ := heb ps bl s ix
    obtain ⟨hc1, hc2, hc3⟩ :=
      ihcs (edge ps bl ⟨s, ix⟩).1 s ((edge ps bl ⟨s, ix⟩).2.ix)
    have heta2 : (traverseEdges edge (edge ps bl ⟨s, ix⟩).1 cs
        ⟨s, (edge ps bl ⟨s, ix⟩).2.ix⟩).2 =
        ⟨s, (traverseEdges edge (edge ps bl ⟨s, ix⟩).1 cs
          ⟨s, (edge ps bl ⟨s, ix⟩).2.ix⟩).2.ix⟩ := rngEta _ s hc1
    obtain ⟨hs1, hs2, hs3⟩ := ihsb ps s
      ((traverseEdges edge (edge ps bl ⟨s, ix⟩).1 cs
        ⟨s, (edge ps bl ⟨s, ix⟩).2.ix⟩).2.ix)
    have hmul : edgeCount (NTree.node nm bl attr cs sb) * B =
        B + edgeCount cs * B + edgeCount sb * B := by
      show (1 + edgeCount cs + edgeCount sb) * B = _
      ring
    simp only [traverseEdges]
    rw [heta1, heta2, hmul]
    exact ⟨hs1, by omega, by omega⟩

theorem traverseEdges_agree (edge : List Int → ℚ → RNG → List Int × RNG) (B : ℕ)
    (hes : ∀ (ps : List Int) (bl : ℚ) (s : ℕ → ℚ) (ix : ℕ),
      (edge ps bl ⟨s, ix⟩).2.stream = s)
    (heb : ∀ (ps : List Int) (bl : ℚ) (s : ℕ → ℚ) (ix : ℕ),
      ix ≤ (edge ps bl ⟨s, ix⟩).2.ix ∧ (edge ps bl ⟨s, ix⟩).2.ix ≤ ix + B)
    (hea : ∀ (ps : List Int) (bl : ℚ) (s s2 : ℕ → ℚ) (ix : ℕ),
      (∀ n < B, s (ix + n) = s2 (ix + n)) →
      (edge ps bl ⟨s, ix⟩).1 = (edge ps bl ⟨s2, ix⟩).1 ∧
      (edge ps bl ⟨s, ix⟩).2.ix = (edge ps bl ⟨s2, ix⟩).2.ix) :
    ∀ (t : NTree) (ps : List Int) (s s2 : ℕ → ℚ) (ix : ℕ),
      (∀ n < edgeCount t * B, s (ix + n) = s2 (ix + n)) →
      (traverseEdges edge ps t ⟨s, ix⟩).1 = (traverseEdges edge ps t ⟨s2, ix⟩).1 ∧
      (traverseEdges edge ps t ⟨s, ix⟩).2.ix =
        (traverseEdges edge ps t ⟨s2, ix⟩).2.ix := by
  intro t
  induction t with
  | nil => intro ps s s2 ix _; exact ⟨rfl, rfl⟩
  | node nm bl attr cs sb ihcs ihsb =>
    intro ps s s2 ix h
    have hmul : edgeCount (NTree.node nm bl attr cs sb) * B =
        B + edgeCount cs * B + edgeCount sb * B := by
      show (1 + edgeCount cs + edgeCount sb) * B = _
      ring
    rw [hmul] at h
    obtain ⟨hv, hix⟩ := hea ps bl s s2 ix (fun n hn => h n (by omega))
    have heta1 : (edge ps bl ⟨s, ix⟩).2 = ⟨s, (edge ps bl ⟨s, ix⟩).2.ix⟩ :=
      rngEta _ s (hes ps bl s ix)
    have heta2 : (edge ps bl ⟨s2, ix⟩).2 = ⟨s2, (edge ps bl ⟨s, ix⟩).2.ix⟩ := by
      rw [rngEta _ s2 (hes ps bl s2 ix), hix]
    obtain ⟨he1, he2⟩ := heb ps bl s ix
    have hcsWindow : ∀ n < edgeCount cs * B,
        s ((edge ps bl ⟨s, ix⟩).2.ix + n) = s2 ((edge ps bl ⟨s, ix⟩).2.ix + n) := by
      intro n hn
      have hx : (edge ps bl ⟨s, ix⟩).2.ix + n =
          ix + ((edge ps bl ⟨s, ix⟩).2.ix - ix + n) := by omega
      rw [hx]
      exact h _ (by omega)
    obtain ⟨hcv, hcix⟩ := ihcs (edge ps bl ⟨s, ix⟩).1 s s2
      ((edge ps bl ⟨s, ix⟩).2.ix) hcsWindow
    obtain ⟨hb1, hb2, hb3⟩ := traverseEdges_bound edge B hes heb cs
      (edge ps bl ⟨s, ix⟩).1 s ((edge ps bl ⟨s, ix⟩).2.ix)
    have heta3 : (traverseEdges edge (edge ps bl ⟨s, ix⟩).1 cs
        ⟨s, (edge ps bl ⟨s, ix⟩).2.ix⟩).2 =
        ⟨s, (traverseEdges edge (edge ps bl ⟨s, ix⟩).1 cs
          ⟨s, (edge ps bl ⟨s, ix⟩).2.ix⟩).2.ix⟩ := rngEta _ s hb1
    have hb1b := (traverseEdges_bound edge B hes heb cs
      (edge ps bl ⟨s, ix⟩).1 s2 ((edge ps bl ⟨s, ix⟩).2.ix)).1
    have heta4 : (traverseEdges edge (edge ps bl ⟨s, ix⟩).1 cs
        ⟨s2, (edge ps bl ⟨s, ix⟩).2.ix⟩).2 =
        ⟨s2, (traverseEdges edge (edge ps bl ⟨s, ix⟩).1 cs
          ⟨s, (edge ps bl ⟨s, ix⟩).2.ix⟩).2.ix⟩ := by
      rw [rngEta _ s2 hb1b, hcix]
    have hsbWindow : ∀ n < edgeCount sb * B,
        s ((traverseEdges edge (edge ps bl ⟨s, ix⟩).1 cs
          ⟨s, (edge ps bl ⟨s, ix⟩).2.ix⟩).2.ix + n) =
        s2 ((traverseEdges edge (edge ps bl ⟨s, ix⟩).1 cs
          ⟨s, (edge ps bl ⟨s, ix⟩).2.ix⟩).2.ix + n) := by
      intro n hn
      have hx : (traverseEdges edge (edge ps bl ⟨s, ix⟩).1 cs
          ⟨s, (edge ps bl ⟨s, ix⟩).2.ix⟩).2.ix + n =
          ix + ((traverseEdges edge (edge ps bl ⟨s, ix⟩).1 cs
            ⟨s, (edge ps bl ⟨s, ix⟩).2.ix⟩).2.ix - ix + n) := by omega
      rw [hx]
      exact h _ (by omega)
    obtain ⟨hsv, hsix⟩ := ihsb ps s s2
      ((traverseEdges edge (edge ps bl ⟨s, ix⟩).1 cs
        ⟨s, (edge ps bl ⟨s, ix⟩).2.ix⟩).2.ix) hsbWindow
    simp only [traverseEdges]
    rw [heta1, heta2, ← hv, hcv, heta3, heta4, hsv]
    exact ⟨rfl, hsix⟩

theorem simulateSeqsWithoutRH_eq_traverse (ctm : ℚ → Int → ℚ) (N L : ℕ) :
    ∀ (t : NTree) (ps : List Int) (r : RNG),
      simulateSeqsWithoutRH ctm N L ps t r =
        traverseEdges (fun ps bl r => simulateSeqsWithoutRHEdge ctm N L bl ps r)
          ps t r := by
  intro t
  induction t with
  | nil => intro ps r; rfl
  | node nm bl attr cs sb ihcs ihsb =>
    intro ps r
    simp only [simulateSeqsWithoutRH, traverseEdges]
    rw [ihcs, ihsb]

theorem simulateSeqsWithRateHeterogeneity_eq_traverse (ctm : ℚ → Int → ℚ)
    (numCats : ℕ) (catProbs catRate : Int → ℚ) (N L : ℕ) :
    ∀ (t : NTree) (ps : List Int) (r : RNG),
      simulateSeqsWithRateHeterogeneity ctm numCats catProbs catRate N L ps t r =
        traverseEdges (fun ps bl r =>
          simulateSeqsWithRateHeterogeneityEdge ctm numCats catProbs catRate N L bl ps r)
          ps t r := by
  intro t
  induction t with
  | nil => intro ps r; rfl
  | node nm bl attr cs sb ihcs ihsb =>
    intro ps r
    simp only [simulateSeqsWithRateHeterogeneity, traverseEdges]
    rw [ihcs, ihsb]

theorem simulateSeqsWithOnlyInvariantSites_eq_traverse (ctm : ℚ → Int → ℚ)
    (N L : ℕ) (invarProp : ℚ) :
    ∀ (t : NTree) (ps : List Int) (r : RNG),
      simulateSeqsWithOnlyInvariantSites ctm N L invarProp ps t r =
        traverseEdges (fun ps bl r =>
          simulateSeqsWithOnlyInvariantSitesEdge ctm N L invarProp bl ps r)
          ps t r := by
  intro t
  induction t with
  | nil => intro ps r; rfl
  | node nm bl attr cs sb ihcs ihsb =>
    intro ps r
    simp only [simulateSeqsWithOnlyInvariantSites, traverseEdges]
    rw [ihcs, ihsb]

theorem AliSimulatorInvar.simulateSeqs_eq_traverse (vd : ℚ → Int → RNG → Int × RNG)
    (bse : ℚ → String → List Int → RNG → List Int × RNG)
    (pf : List Int → List Int) (pr : ℚ) (L : ℕ) (rates : List ℚ) :
    ∀ (t : NTree) (ps : List Int) (r : RNG), attrsEmpty t = true →
      AliSimulatorInvar.simulateSeqs vd bse false pf pr L rates ps t r =
        traverseEdges (fun ps bl r =>
          AliSimulatorInvar.simulateASequenceFromBranchAfterInitVariables
            vd pr L rates bl ps r) ps t r := by
  intro t
  induction t with
  | nil => intro ps r _; rfl
  | node nm bl attr cs sb ihcs ihsb =>
    intro ps r hattr
    simp only [attrsEmpty, Bool.and_eq_true, decide_eq_true_eq] at hattr
    obtain ⟨⟨ha, hcs⟩, hsb⟩ := hattr
    simp only [AliSimulatorInvar.simulateSeqs, traverseEdges, ha, Bool.false_and,
      if_false, Bool.false_eq_true]
    have hlen : ¬ (String.length "" > 0) := by decide
    rw [if_neg hlen, ihcs _ _ hcs, ihsb _ _ hsb]

theorem estimateStateWithRH_stream (ctm : ℚ → Int → ℚ) (numCats : ℕ)
    (catProbs catRate : Int → ℚ) (N : ℕ) (bl : ℚ) (d : Int) (r : RNG) :
    (estimateStateWithRH ctm numCats catProbs catRate N bl d r).2.1.stream =
      r.stream := by
  by_cases h : getRandomItemWithProbabilityMatrix catProbs 0 numCats (r.stream r.ix) = -1 <;>
    simp [estimateStateWithRH, RNG.next, h]

theorem rhSite_stream (ctm : ℚ → Int → ℚ) (numCats : ℕ) (catProbs catRate : Int → ℚ)
    (N : ℕ) (bl : ℚ) (ps : List Int) :
    ∀ (i : ℕ) (s : ℕ → ℚ) (ix : ℕ),
      (simulateSeqsWithRHSite ctm numCats catProbs catRate N bl ps i ⟨s, ix⟩).2.stream =
        s :=
  fun i s ix => estimateStateWithRH_stream ctm numCats catProbs catRate N bl
    (ps.getD i 0) ⟨s, ix⟩

theorem rhSite_bound (ctm : ℚ → Int → ℚ) (numCats : ℕ) (catProbs catRate : Int → ℚ)
    (N : ℕ) (bl : ℚ) (ps : List Int) :
    ∀ (i : ℕ) (s : ℕ → ℚ) (ix : ℕ),
      ix ≤ (simulateSeqsWithRHSite ctm numCats catProbs catRate N bl ps i ⟨s, ix⟩).2.ix ∧
      (simulateSeqsWithRHSite ctm numCats catProbs catRate N bl ps i ⟨s, ix⟩).2.ix ≤
        ix + 2 := by
  intro i s ix
  have h := estimateStateWithRH_ix ctm numCats catProbs catRate N bl (ps.getD i 0)
    ⟨s, ix⟩
  have hx : (⟨s, ix⟩ : RNG).ix = ix := rfl
  rw [hx] at h
  have hr : (simulateSeqsWithRHSite ctm numCats catProbs catRate N bl ps i ⟨s, ix⟩).2.ix =
      (estimateStateWithRH ctm numCats catProbs catRate N bl (ps.getD i 0)
        ⟨s, ix⟩).2.1.ix := rfl
  rw [hr]
  rcases h with h | h <;> omega

theorem rhSite_agree (ctm : ℚ → Int → ℚ) (numCats : ℕ) (catProbs catRate : Int → ℚ)
    (N : ℕ) (bl : ℚ) (ps : List Int) :
    ∀ (i : ℕ) (s s2 : ℕ → ℚ) (ix : ℕ),
      (∀ n < 2, s (ix + n) = s2 (ix + n)) →
      (simulateSeqsWithRHSite ctm numCats catProbs catRate N bl ps i ⟨s, ix⟩).1 =
        (simulateSeqsWithRHSite ctm numCats catProbs catRate N bl ps i ⟨s2, ix⟩).1 ∧
      (simulateSeqsWithRHSite ctm numCats catProbs catRate N bl ps i ⟨s, ix⟩).2.ix =
        (simulateSeqsWithRHSite ctm numCats catProbs catRate N bl ps i ⟨s2, ix⟩).2.ix := by
  intro i s s2 ix h
  have h0 : s ix = s2 ix := by simpa using h 0 (by omega)
  have h1 : s (ix + 1) = s2 (ix + 1) := h 1 (by omega)
  by_cases hc : getRandomItemWithProbabilityMatrix catProbs 0 numCats (s ix) = -1
  · have hc2 : getRandomItemWithProbabilityMatrix catProbs 0 numCats (s2 ix) = -1 := by
      rw [← h0]; exact hc
    constructor <;>
      simp [simulateSeqsWithRHSite, estimateStateWithRH, RNG.next, hc, hc2]
  · have hc2 : ¬ getRandomItemWithProbabilityMatrix catProbs 0 numCats (s2 ix) = -1 := by
      rw [← h0]; exact hc
    constructor <;>
      simp [simulateSeqsWithRHSite, estimateStateWithRH, RNG.next, hc, hc2, h0, h1]

theorem onlyInvarSite_stream (ctm : ℚ → Int → ℚ) (N : ℕ) (invarProp bl : ℚ)
    (ps : List Int) :
    ∀ (i : ℕ) (s : ℕ → ℚ) (ix : ℕ),
      (onlyInvarSite ctm N invarProp bl ps i ⟨s, ix⟩).2.stream = s := by
  intro i s ix
  by_cases h : s ix ≤ invarProp <;> simp [onlyInvarSite, RNG.next, h]

theorem onlyInvarSite_bound (ctm : ℚ → Int → ℚ) (N : ℕ) (invarProp bl : ℚ)
    (ps : List Int) :
    ∀ (i : ℕ) (s : ℕ → ℚ) (ix : ℕ),
      ix ≤ (onlyInvarSite ctm N invarProp bl ps i ⟨s, ix⟩).2.ix ∧
      (onlyInvarSite ctm N invarProp bl ps i ⟨s, ix⟩).2.ix ≤ ix + 2 := by
  intro i s ix
  by_cases h : s ix ≤ invarProp <;> simp [onlyInvarSite, RNG.next, h] <;> omega

theorem onlyInvarSite_agree (ctm : ℚ → Int → ℚ) (N : ℕ) (invarProp bl : ℚ)
    (ps : List Int) :
    ∀ (i : ℕ) (s s2 : ℕ → ℚ) (ix : ℕ),
      (∀ n < 2, s (ix + n) = s2 (ix + n)) →
      (onlyInvarSite ctm N invarProp bl ps i ⟨s, ix⟩).1 =
        (onlyInvarSite ctm N invarProp bl ps i ⟨s2, ix⟩).1 ∧
      (onlyInvarSite ctm N invarProp bl ps i ⟨s, ix⟩).2.ix =
        (onlyInvarSite ctm N invarProp bl ps i ⟨s2, ix⟩).2.ix := by
  intro i s s2 ix h
  have h0 : s ix = s2 ix := by simpa using h 0 (by omega)
  have h1 : s (ix + 1) = s2 (ix + 1) := h 1 (by omega)
  by_cases hc : s ix ≤ invarProp
  · have hc2 : s2 ix ≤ invarProp := by rw [← h0]; exact hc
    constructor <;> simp [onlyInvarSite, RNG.next, hc, hc2]
  · have hc2 : ¬ s2 ix ≤ invarProp := by rw [← h0]; exact hc
    constructor <;> simp [onlyInvarSite, RNG.next, hc, hc2, h1]

theorem invarClassSite_unfold (g : ℚ → Int → ℚ → Int) (pr : ℚ) (rates : List ℚ)
    (bl : ℚ) (ps : List Int) (i : ℕ) (s : ℕ → ℚ) (ix : ℕ) :
    invarClassSite g pr rates bl ps i ⟨s, ix⟩ =
      if rates.getD i 1 = 0 then (ps.getD i 0, ⟨s, ix⟩)
      else (g (pr * bl) (ps.getD i 0) (s ix), ⟨s, ix + 1⟩) := rfl

theorem invarClassSite_stream (g : ℚ → Int → ℚ → Int) (pr : ℚ) (rates : List ℚ)
    (bl : ℚ) (ps : List Int) :
    ∀ (i : ℕ) (s : ℕ → ℚ) (ix : ℕ),
      (invarClassSite g pr rates bl ps i ⟨s, ix⟩).2.stream = s := by
  intro i s ix
  rw [invarClassSite_unfold]
  by_cases h : rates.getD i 1 = 0
  · rw [if_pos h]
  · rw [if_neg h]

theorem invarClassSite_bound (g : ℚ → Int → ℚ → Int) (pr : ℚ) (rates : List ℚ)
    (bl : ℚ) (ps : List Int) :
    ∀ (i : ℕ) (s : ℕ → ℚ) (ix : ℕ),
      ix ≤ (invarClassSite g pr rates bl ps i ⟨s, ix⟩).2.ix ∧
      (invarClassSite g pr rates bl ps i ⟨s, ix⟩).2.ix ≤ ix + 1 := by
  intro i s ix
  rw [invarClassSite_unfold]
  by_cases h : rates.getD i 1 = 0
  · rw [if_pos h]
    exact ⟨le_refl _, Nat.le_succ ix⟩
  · rw [if_neg h]
    exact ⟨Nat.le_succ ix, le_refl _⟩

theorem invarClassSite_agree (g : ℚ → Int → ℚ → Int) (pr : ℚ) (rates : List ℚ)
    (bl : ℚ) (ps : List Int) :
    ∀ (i : ℕ) (s s2 : ℕ → ℚ) (ix : ℕ),
      (∀ n < 1, s (ix + n) = s2 (ix + n)) →
      (invarClassSite g pr rates bl ps i ⟨s, ix⟩).1 =
        (invarClassSite g pr rates bl ps i ⟨s2, ix⟩).1 ∧
      (invarClassSite g pr rates bl ps i ⟨s, ix⟩).2.ix =
        (invarClassSite g pr rates bl ps i ⟨s2, ix⟩).2.ix := by
  intro i s s2 ix h
  have h0 : s ix = s2 ix := by simpa using h 0 (by omega)
  rw [invarClassSite_unfold, invarClassSite_unfold, h0]
  by_cases hc : rates.getD i 1 = 0
  · rw [if_pos hc, if_pos hc]
    exact ⟨rfl, rfl⟩
  · rw [if_neg hc, if_neg hc]
    exact ⟨rfl, rfl⟩

theorem simulateSeqsWithRateHeterogeneity_window (ctm : ℚ → Int → ℚ) (numCats : ℕ)
    (catProbs catRate : Int → ℚ) (N L : ℕ) :
    ∀ (t : NTree) (ps : List Int) (s s2 : ℕ → ℚ) (ix : ℕ),
      (∀ n < edgeCount t * (L * 2), s (ix + n) = s2 (ix + n)) →
      (simulateSeqsWithRateHeterogeneity ctm numCats catProbs catRate N L ps t
        ⟨s, ix⟩).1 =
      (simulateSeqsWithRateHeterogeneity ctm numCats catProbs catRate N L ps t
        ⟨s2, ix⟩).1 := by
  intro t ps s s2 ix h
  rw [simulateSeqsWithRateHeterogeneity_eq_traverse,
    simulateSeqsWithRateHeterogeneity_eq_traverse]
  refine (traverseEdges_agree _ (L * 2) ?_ ?_ ?_ t ps s s2 ix h).1
  · intro ps2 bl s3 ix3
    exact (mapRangeWindowed_bound
      (simulateSeqsWithRHSite ctm numCats catProbs catRate N bl ps2) 2
      (rhSite_stream ctm numCats catProbs catRate N bl ps2)
      (rhSite_bound ctm numCats catProbs catRate N bl ps2) L 0 s3 ix3).1
  · intro ps2 bl s3 ix3
    exact ⟨(mapRangeWindowed_bound
      (simulateSeqsWithRHSite ctm numCats catProbs catRate N bl ps2) 2
      (rhSite_stream ctm numCats catProbs catRate N bl ps2)
      (rhSite_bound ctm numCats catProbs catRate N bl ps2) L 0 s3 ix3).2.1,
      (mapRangeWindowed_bound
      (simulateSeqsWithRHSite ctm numCats catProbs catRate N bl ps2) 2
      (rhSite_stream ctm numCats catProbs catRate N bl ps2)
      (rhSite_bound ctm numCats catProbs catRate N bl ps2) L 0 s3 ix3).2.2⟩
  · intro ps2 bl s3 s4 ix3 hagr
    exact mapRangeWindowed_agree
      (simulateSeqsWithRHSite ctm numCats catProbs catRate N bl ps2) 2
      (rhSite_stream ctm numCats catProbs catRate N bl ps2)
      (rhSite_bound ctm numCats catProbs catRate N bl ps2)
      (rhSite_agree ctm numCats catProbs catRate N bl ps2) L 0 s3 s4 ix3 hagr

theorem simulateSeqsWithOnlyInvariantSites_window (ctm : ℚ → Int → ℚ) (N L : ℕ)
    (invarProp : ℚ) :
    ∀ (t : NTree) (ps : List Int) (s s2 : ℕ → ℚ) (ix : ℕ),
      (∀ n < edgeCount t * (L * 2), s (ix + n) = s2 (ix + n)) →
      (simulateSeqsWithOnlyInvariantSites ctm N L invarProp ps t ⟨s, ix⟩).1 =
      (simulateSeqsWithOnlyInvariantSites ctm N L invarProp ps t ⟨s2, ix⟩).1 := by
  intro t ps s s2 ix h
  rw [simulateSeqsWithOnlyInvariantSites_eq_traverse,
    simulateSeqsWithOnlyInvariantSites_eq_traverse]
  refine (traverseEdges_agree _ (L * 2) ?_ ?_ ?_ t ps s s2 ix h).1
  · intro ps2 bl s3 ix3
    exact (mapRangeWindowed_bound (onlyInvarSite ctm N invarProp bl ps2) 2
      (onlyInvarSite_stream ctm N invarProp bl ps2)
      (onlyInvarSite_bound ctm N invarProp bl ps2) L 0 s3 ix3).1
  · intro ps2 bl s3 ix3
    exact ⟨(mapRangeWindowed_bound (onlyInvarSite ctm N invarProp bl ps2) 2
      (onlyInvarSite_stream ctm N invarProp bl ps2)
      (onlyInvarSite_bound ctm N invarProp bl ps2) L 0 s3 ix3).2.1,
      (mapRangeWindowed_bound (onlyInvarSite ctm N invarProp bl ps2) 2
      (onlyInvarSite_stream ctm N invarProp bl ps2)
      (onlyInvarSite_bound ctm N invarProp bl ps2) L 0 s3 ix3).2.2⟩
  · intro ps2 bl s3 s4 ix3 hagr
    exact mapRangeWindowed_agree (onlyInvarSite ctm N invarProp bl ps2) 2
      (onlyInvarSite_stream ctm N invarProp bl ps2)
      (onlyInvarSite_bound ctm N invarProp bl ps2)
      (onlyInvarSite_agree ctm N invarProp bl ps2) L 0 s3 s4 ix3 hagr

theorem AliSimulatorInvar.simulateSeqs_window (g : ℚ → Int → ℚ → Int)
    (bse : ℚ → String → List Int → RNG → List Int × RNG)
    (pf : List Int → List Int) (pr : ℚ) (L : ℕ) (rates : List ℚ) :
    ∀ (t : NTree) (ps : List Int) (s s2 : ℕ → ℚ) (ix : ℕ),
      attrsEmpty t = true →
      (∀ n < edgeCount t * (L * 1), s (ix + n) = s2 (ix + n)) →
      (AliSimulatorInvar.simulateSeqs (vdOf g) bse false pf pr L rates ps t
        ⟨s, ix⟩).1 =
      (AliSimulatorInvar.simulateSeqs (vdOf g) bse false pf pr L rates ps t
        ⟨s2, ix⟩).1 := by
  intro t ps s s2 ix hattr h
  rw [AliSimulatorInvar.simulateSeqs_eq_traverse (vdOf g) bse pf pr L rates t ps _ hattr,
    AliSimulatorInvar.simulateSeqs_eq_traverse (vdOf g) bse pf pr L rates t ps _ hattr]
  refine (traverseEdges_agree _ (L * 1) ?_ ?_ ?_ t ps s s2 ix h).1
  · intro ps2 bl s3 ix3
    exact (mapRangeWindowed_bound (invarClassSite g pr rates bl ps2) 1
      (invarClassSite_stream g pr rates bl ps2)
      (invarClassSite_bound g pr rates bl ps2) L 0 s3 ix3).1
  · intro ps2 bl s3 ix3
    exact ⟨(mapRangeWindowed_bound (invarClassSite g pr rates bl ps2) 1
      (invarClassSite_stream g pr rates bl ps2)
      (invarClassSite_bound g pr rates bl ps2) L 0 s3 ix3).2.1,
      (mapRangeWindowed_bound (invarClassSite g pr rates bl ps2) 1
      (invarClassSite_stream g pr rates bl ps2)
      (invarClassSite_bound g pr rates bl ps2) L 0 s3 ix3).2.2⟩
  · intro ps2 bl s3 s4 ix3 hagr
    exact mapRangeWindowed_agree (invarClassSite g pr rates bl ps2) 1
      (invarClassSite_stream g pr rates bl ps2)
      (invarClassSite_bound g pr rates bl ps2)
      (invarClassSite_agree g pr rates bl ps2) L 0 s3 s4 ix3 hagr

/-- Claim C8.  Fixed-seed reproducibility holds in every regime.  First, the
complete pipeline with the full regime dispatch of simulateSeqsForTree
(no rate heterogeneity, +G/+R discrete rate heterogeneity, +I invariant
sites, and the silent fall-through) is a function of the finite stream
window actually consumed: two runs whose random streams agree on the
L + edges*(2L) draws starting at the current position produce identical
output, whatever the rate name.  Second, the class-based streaming pipeline
of AliSimulatorInvar::simulateSeqsForTree (pre-drawn rates, DFS simulation,
streamed leaf lines) on common-model edges is likewise a function of the
L + edges*L draws it consumes.  In both cases two runs with the same seed
(hence the same stream) are byte-identical, all draws occurring in
deterministic DFS order. -/
theorem C8_fixed_seed_reproducibility_all_regimes (freqEqual : Bool)
    (stateFreq : Int → ℚ) (ctm : ℚ → Int → ℚ) (numCats : ℕ)
    (catProbs catRate : Int → ℚ) (back : Int → String) (N L : ℕ)
    (rateName : List Char) (invarProp pr : ℚ) (g : ℚ → Int → ℚ → Int)
    (bse : ℚ → String → List Int → RNG → List Int × RNG)
    (pf : List Int → List Int) (rootSeq : List Int) (t : NTree)
    (s s2 : ℕ → ℚ) (ix : ℕ) :
    ((∀ n < L + rootForestEdges t * (L * 2), s (ix + n) = s2 (ix + n)) →
      generateSingleDatasetFromSingleTreeRegimes freqEqual stateFreq ctm numCats
          catProbs catRate back N L rateName invarProp t ⟨s, ix⟩ =
        generateSingleDatasetFromSingleTreeRegimes freqEqual stateFreq ctm numCats
          catProbs catRate back N L rateName invarProp t ⟨s2, ix⟩) ∧
    (attrsEmpty t = true →
      (∀ n < L + rootForestEdges t * L, s (ix + n) = s2 (ix + n)) →
      streamedRunInvar g bse pf pr invarProp L back rootSeq t ⟨s, ix⟩ =
        streamedRunInvar g bse pf pr invarProp L back rootSeq t ⟨s2, ix⟩) := by
  constructor
  · intro h
    cases t with
    | nil => rfl
    | node nm bl attr cs sb =>
      have hroot : generateRandomSequence freqEqual stateFreq N L ⟨s, ix⟩ =
          ((List.range L).map (fun k =>
            if freqEqual then random_int (s (ix + k)) N
            else getRandomItemWithProbabilityMatrix stateFreq 0 N (s (ix + k))),
           ⟨s, ix + L⟩) := drawMap_spec _ L s ix
      have hroot2 : generateRandomSequence freqEqual stateFreq N L ⟨s2, ix⟩ =
          ((List.range L).map (fun k =>
            if freqEqual then random_int (s2 (ix + k)) N
            else getRandomItemWithProbabilityMatrix stateFreq 0 N (s2 (ix + k))),
           ⟨s2, ix + L⟩) := drawMap_spec _ L s2 ix
      have hrootEq : (List.range L).map (fun k =>
            if freqEqual then random_int (s (ix + k)) N
            else getRandomItemWithProbabilityMatrix stateFreq 0 N (s (ix + k))) =
          (List.range L).map (fun k =>
            if freqEqual then random_int (s2 (ix + k)) N
            else getRandomItemWithProbabilityMatrix stateFreq 0 N (s2 (ix + k))) := by
        apply List.map_congr_left
        intro a ha
        rw [h a (by
          have := List.mem_range.mp ha
          show a < L + rootForestEdges (NTree.node nm bl attr cs sb) * (L * 2)
          omega)]
      have hwin : ∀ n < edgeCount cs * (L * 2),
          s (ix + L + n) = s2 (ix + L + n) := by
        intro n hn
        have hx : ix + L + n = ix + (L + n) := by omega
        rw [hx]
        apply h
        show L + n < L + rootForestEdges (NTree.node nm bl attr cs sb) * (L * 2)
        rw [show rootForestEdges (NTree.node nm bl attr cs sb) = edgeCount cs from rfl]
        omega
      have hsim : ∀ R : List Int,
          (simulateSeqsForTreeSim ctm numCats catProbs catRate N L rateName
            invarProp R cs ⟨s, ix + L⟩).1 =
          (simulateSeqsForTreeSim ctm numCats catProbs catRate N L rateName
            invarProp R cs ⟨s2, ix + L⟩).1 := by
        intro R
        rcases hdis : simulateSeqsForTreeDispatch rateName with _ | _ | _ | _ <;>
          simp only [simulateSeqsForTreeSim, hdis]
        · apply simulateSeqsWithoutRH_agree
          intro n hn
          apply hwin
          have hb : edgeCount cs * (L * 2) = 2 * (L * edgeCount cs) := by ring
          omega
        · exact simulateSeqsWithRateHeterogeneity_window ctm numCats catProbs
            catRate N L cs R s s2 (ix + L) hwin
        · exact simulateSeqsWithOnlyInvariantSites_window ctm N L invarProp
            cs R s s2 (ix + L) hwin
      simp only [generateSingleDatasetFromSingleTreeRegimes]
      rw [hroot, hroot2]
      simp only
      rw [hrootEq]
      exact congrArg (writeSequencesToFile back L nm _) (hsim _)
  · intro hattr h
    cases t with
    | nil =>
      have hiv : AliSimulatorInvar.initVariables invarProp L ⟨s, ix⟩ =
          ((List.range L).map (fun i => if s (ix + i) ≤ invarProp then (0 : ℚ) else 1),
           ⟨s, ix + L⟩) := drawMap_spec _ L s ix
      have hiv2 : AliSimulatorInvar.initVariables invarProp L ⟨s2, ix⟩ =
          ((List.range L).map (fun i => if s2 (ix + i) ≤ invarProp then (0 : ℚ) else 1),
           ⟨s2, ix + L⟩) := drawMap_spec _ L s2 ix
      have hR : (List.range L).map (fun i =>
            if s (ix + i) ≤ invarProp then (0 : ℚ) else 1) =
          (List.range L).map (fun i =>
            if s2 (ix + i) ≤ invarProp then (0 : ℚ) else 1) := by
        apply List.map_congr_left
        intro a ha
        rw [h a (by
          have := List.mem_range.mp ha
          show a < L + rootForestEdges NTree.nil * L
          rw [show rootForestEdges NTree.nil = 0 from rfl]
          omega)]
      simp only [streamedRunInvar, AliSimulatorInvar.simulateSeqsForTree]
      rw [hiv, hiv2]
      simp only
      rw [hR]
    | node nm bl attr cs sb =>
      simp only [attrsEmpty, Bool.and_eq_true, decide_eq_true_eq] at hattr
      obtain ⟨⟨ha, hcs⟩, hsb⟩ := hattr
      have hiv : AliSimulatorInvar.initVariables invarProp L ⟨s, ix⟩ =
          ((List.range L).map (fun i => if s (ix + i) ≤ invarProp then (0 : ℚ) else 1),
           ⟨s, ix + L⟩) := drawMap_spec _ L s ix
      have hiv2 : AliSimulatorInvar.initVariables invarProp L ⟨s2, ix⟩ =
          ((List.range L).map (fun i => if s2 (ix + i) ≤ invarProp then (0 : ℚ) else 1),
           ⟨s2, ix + L⟩) := drawMap_spec _ L s2 ix
      have hR : (List.range L).map (fun i =>
            if s (ix + i) ≤ invarProp then (0 : ℚ) else 1) =
          (List.range L).map (fun i =>
            if s2 (ix + i) ≤ invarProp then (0 : ℚ) else 1) := by
        apply List.map_congr_left
        intro a ha
        rw [h a (by
          have := List.mem_range.mp ha
          show a < L + rootForestEdges (NTree.node nm bl attr cs sb) * L
          omega)]
      have hwin : ∀ n < edgeCount cs * (L * 1),
          s (ix + L + n) = s2 (ix + L + n) := by
        intro n hn
        have hx : ix + L + n = ix + (L + n) := by omega
        rw [hx]
        apply h
        show L + n < L + rootForestEdges (NTree.node nm bl attr cs sb) * L
        rw [show rootForestEdges (NTree.node nm bl attr cs sb) = edgeCount cs from rfl]
        have hb : edgeCount cs * (L * 1) = edgeCount cs * L := by ring
        omega
      have hsim : ∀ rates : List ℚ,
          (AliSimulatorInvar.simulateSeqs (vdOf g) bse false pf pr L rates rootSeq
            cs ⟨s, ix + L⟩).1 =
          (AliSimulatorInvar.simulateSeqs (vdOf g) bse false pf pr L rates rootSeq
            cs ⟨s2, ix + L⟩).1 := fun rates =>
        AliSimulatorInvar.simulateSeqs_window g bse pf pr L rates cs rootSeq
          s s2 (ix + L) hcs hwin
      simp only [streamedRunInvar, AliSimulatorInvar.simulateSeqsForTree]
      rw [hiv, hiv2]
      simp only
      rw [hR, hsim _]

/-- Witness for C8: on a one-edge tree with one site, streams agreeing on
the consumed windows give identical complete outputs for the +G regime of
the prototype pipeline and for the class-based streaming pipeline. -/
theorem C8_fixed_seed_reproducibility_all_regimes_witness :
    ((∀ n < 1 + rootForestEdges c8Tree * (1 * 2), c8Stream (0 + n) = c8Stream3 (0 + n)) ∧
      generateSingleDatasetFromSingleTreeRegimes false c3WitnessPm c8Ctm 2
          c2CatProbs c2Rate dnaBack 2 1 (['+', 'G']) (1/2) c8Tree ⟨c8Stream, 0⟩ =
        generateSingleDatasetFromSingleTreeRegimes false c3WitnessPm c8Ctm 2
          c2CatProbs c2Rate dnaBack 2 1 (['+', 'G']) (1/2) c8Tree ⟨c8Stream3, 0⟩) ∧
    (attrsEmpty c8Tree = true ∧
      (∀ n < 1 + rootForestEdges c8Tree * 1, c8Stream (0 + n) = c8Stream2 (0 + n)) ∧
      streamedRunInvar (fun _ _ _ => 0) (fun _ _ ps r => (ps, r)) id 1 (1/2) 1
          dnaBack ([0]) c8Tree ⟨c8Stream, 0⟩ =
        streamedRunInvar (fun _ _ _ => 0) (fun _ _ ps r => (ps, r)) id 1 (1/2) 1
          dnaBack ([0]) c8Tree ⟨c8Stream2, 0⟩) := by
  have h1 : ∀ n < 1 + rootForestEdges c8Tree * (1 * 2),
      c8Stream (0 + n) = c8Stream3 (0 + n) := by
    intro n hn
    have h3 : n < 3 := by
      have : rootForestEdges c8Tree = 1 := rfl
      omega
    simp [c8Stream, c8Stream3, h3]
  have h2 : ∀ n < 1 + rootForestEdges c8Tree * 1,
      c8Stream (0 + n) = c8Stream2 (0 + n) := by
    intro n hn
    have hn2 : n < 2 := by
      have : rootForestEdges c8Tree = 1 := rfl
      omega
    simp [c8Stream, c8Stream2, hn2]
  have hA : attrsEmpty c8Tree = true := by decide
  exact ⟨⟨h1, (C8_fixed_seed_reproducibility_all_regimes false c3WitnessPm c8Ctm 2
      c2CatProbs c2Rate dnaBack 2 1 (['+', 'G']) (1/2) 1 (fun _ _ _ => 0)
      (fun _ _ ps r => (ps, r)) id ([0]) c8Tree c8Stream c8Stream3 0).1 h1⟩,
    hA, h2, (C8_fixed_seed_reproducibility_all_regimes false c3WitnessPm c8Ctm 2
      c2CatProbs c2Rate dnaBack 2 1 (['+', 'G']) (1/2) 1 (fun _ _ _ => 0)
      (fun _ _ ps r => (ps, r)) id ([0]) c8Tree c8Stream c8Stream2 0).2 hA h2⟩

end AliSimProof
